import Mathlib

/-!
# Verification of the ssb legacy-msg-data codec

A shallow embedding of the `legacy-msg-data` crate (ssb legacy message data
format): the `LegacyF64` validity rules, the weird-encoding iterator, the
`RidiculousStringMap` ordered object container, the json (textual) encoder and
decoder, and the cbor (binary) encoder and decoder.  Machine floats are
represented by their IEEE-754 binary64 bit patterns as natural numbers
`< 2^64`; Rust strings are represented as their sequences of Unicode scalar
values (`List Char`), with `strBytes` giving the UTF-8 byte sequence that
Rust's `str::bytes()` iterates.
-/

namespace LegacyMsg

/-! ## IEEE-754 binary64 bit-level model

An `f64` is its 64-bit pattern, a `Nat` below `2 ^ 64`.  The operations used
by the crate (`== 0.0`, `is_sign_positive`, `is_finite`) are defined on the
bit pattern exactly as IEEE-754 defines them. -/

/-- The bit pattern of `-0.0`: sign bit set, all other bits clear. -/
def negZeroBits : Nat := 2 ^ 63

/-- IEEE equality `f == 0.0`: true exactly for `+0.0` and `-0.0`. -/
def f64EqZero (b : Nat) : Bool := b == 0 || b == negZeroBits

/-- `f64::is_sign_positive`: the sign bit is clear. -/
def f64SignPositive (b : Nat) : Bool := b < 2 ^ 63

/-- The 11-bit exponent field of the bit pattern. -/
def f64ExpField (b : Nat) : Nat := b / 2 ^ 52 % 2 ^ 11

/-- `f64::is_finite`: the exponent field is not all ones. -/
def f64IsFinite (b : Nat) : Bool := f64ExpField b != 2047

/-- `is_f64_valid` from `src/lib.rs`:
`if f == 0.0 { f.is_sign_positive() } else { f.is_finite() && (f != 0.0) }`. -/
def is_f64_valid (b : Nat) : Bool :=
  if f64EqZero b then f64SignPositive b else f64IsFinite b && !(f64EqZero b)

namespace LegacyF64

/-- `LegacyF64::is_valid` from `src/data/legacy_f64.rs` (same body as
`is_f64_valid`). -/
def is_valid (b : Nat) : Bool :=
  if f64EqZero b then f64SignPositive b else f64IsFinite b && !(f64EqZero b)

/-- `LegacyF64::from_f64`: wrap iff valid.  The wrapped value is the same bit
pattern. -/
def from_f64 (b : Nat) : Option Nat :=
  if is_valid b then some b else none

end LegacyF64

/-- The bit pattern of `+∞`. -/
def posInfBits : Nat := 0x7FF0000000000000

/-- The bit pattern of `-∞`. -/
def negInfBits : Nat := 0xFFF0000000000000

/-- A quiet-NaN bit pattern. -/
def qNaNBits : Nat := 0x7FF8000000000000

/-- The "Float-Safe" predicate as the spec words it: finite and not negative
zero. -/
def specFloatSafe (b : Nat) : Prop := f64IsFinite b = true ∧ b ≠ negZeroBits

instance (b : Nat) : Decidable (specFloatSafe b) := by
  unfold specFloatSafe; infer_instance

/-! ## UTF-16 and the weird encoding (`src/lib.rs`) -/

/-- The UTF-16 code units of one Unicode scalar value. -/
def encodeUtf16Char (c : Char) : List Nat :=
  let n := c.toNat
  if n < 0x10000 then [n]
  else [0xD800 + (n - 0x10000) / 0x400, 0xDC00 + (n - 0x10000) % 0x400]

/-- `str::encode_utf16`: the UTF-16 code units of a string. -/
def encodeUtf16 (s : List Char) : List Nat := s.flatMap encodeUtf16Char

/-- `shiftr8` from `src/lib.rs`: `x as u8`, the low byte of a `u16`. -/
def shiftr8 (x : Nat) : Nat := x % 256

/-- `to_weird_encoding`: `s.encode_utf16().map(shiftr8)`. -/
def to_weird_encoding (s : List Char) : List Nat :=
  (encodeUtf16 s).map shiftr8

/-- `legacy_length`: `to_weird_encoding(msg).count()`. -/
def legacy_length (s : List Char) : Nat := (to_weird_encoding s).length

/-- C4: `to_weird_encoding` yields exactly the low bytes (`mod 256`) of the
UTF-16 code units of the string, in order; `legacy_length` counts those bytes,
which is the number of UTF-16 code units; and on the one-character string
`"é"` (U+00E9) the iterator yields the single byte `0xE9`. -/
theorem claim_C4 :
    (∀ s : List Char, to_weird_encoding s = (encodeUtf16 s).map (fun u => u % 256))
    ∧ (∀ s : List Char, legacy_length s = (to_weird_encoding s).length)
    ∧ (∀ s : List Char, legacy_length s = (encodeUtf16 s).length)
    ∧ to_weird_encoding ['é'] = [0xE9] := by
  refine ⟨fun s => rfl, fun s => rfl, fun s => ?_, by decide⟩
  simp [legacy_length, to_weird_encoding]

/-- C5: `LegacyF64::from_f64 b` returns `some` exactly when `b` is finite and
not negative zero (`specFloatSafe`); NaN, the infinities and `-0.0` yield
`none` while `+0.0` is accepted; and the free function `is_f64_valid` agrees
with `LegacyF64::is_valid` on every input. -/
theorem claim_C5 :
    (∀ b : Nat, (LegacyF64.from_f64 b).isSome ↔ specFloatSafe b)
    ∧ (∀ b : Nat, is_f64_valid b = LegacyF64.is_valid b)
    ∧ LegacyF64.from_f64 0 = some 0
    ∧ LegacyF64.from_f64 negZeroBits = none
    ∧ LegacyF64.from_f64 posInfBits = none
    ∧ LegacyF64.from_f64 negInfBits = none
    ∧ LegacyF64.from_f64 qNaNBits = none := by
  refine ⟨fun b => ?_, fun b => rfl, by decide, by decide, by decide, by decide, by decide⟩
  unfold LegacyF64.from_f64 LegacyF64.is_valid specFloatSafe f64EqZero
  by_cases h0 : b = 0
  · subst h0; simp [f64SignPositive, negZeroBits, f64IsFinite, f64ExpField]
  · by_cases hnz : b = negZeroBits
    · subst hnz
      simp [f64SignPositive, negZeroBits]
    · have h1 : (b == 0 || b == negZeroBits) = false := by
        simp [h0, hnz]
      simp [h1, hnz]

/-! ## UTF-8: `str::bytes` and validating decoding

`strBytes` is the UTF-8 byte sequence of a string (what `s.as_bytes()` /
`s.bytes()` expose); `utf8DecodeOne` models `Utf8Char::from_slice_start`,
the validating decoder used byte-group by byte-group by the json string
parser, and `utf8DecodeAll` models `std::str::from_utf8` as used by the cbor
string parser. -/

/-- The UTF-8 encoding of one Unicode scalar value. -/
def utf8EncodeChar (c : Char) : List Nat :=
  let n := c.toNat
  if n < 0x80 then [n]
  else if n < 0x800 then [0xC0 + n / 64, 0x80 + n % 64]
  else if n < 0x10000 then [0xE0 + n / 4096, 0x80 + n / 64 % 64, 0x80 + n % 64]
  else [0xF0 + n / 262144, 0x80 + n / 4096 % 64, 0x80 + n / 64 % 64, 0x80 + n % 64]

/-- The UTF-8 bytes of a string (`str::as_bytes`). -/
def strBytes (s : List Char) : List Nat := s.flatMap utf8EncodeChar

/-- Decode and validate one UTF-8-encoded scalar value from the front of a
byte slice, returning it and the number of bytes consumed
(`Utf8Char::from_slice_start`): rejects bad continuation bytes, overlong
forms, surrogates and values above `0x10FFFF`. -/
def utf8DecodeOne : List Nat → Option (Char × Nat)
  | [] => none
  | b0 :: t =>
    if b0 < 0x80 then some (Char.ofNat b0, 1)
    else if b0 < 0xC2 then none
    else if b0 ≤ 0xDF then
      match t with
      | b1 :: _ =>
        if 0x80 ≤ b1 && b1 ≤ 0xBF then
          some (Char.ofNat ((b0 - 0xC0) * 64 + (b1 - 0x80)), 2)
        else none
      | [] => none
    else if b0 ≤ 0xEF then
      match t with
      | b1 :: b2 :: _ =>
        if 0x80 ≤ b1 && b1 ≤ 0xBF && 0x80 ≤ b2 && b2 ≤ 0xBF then
          let n := (b0 - 0xE0) * 4096 + (b1 - 0x80) * 64 + (b2 - 0x80)
          if n < 0x800 then none
          else if 0xD800 ≤ n && n ≤ 0xDFFF then none
          else some (Char.ofNat n, 3)
        else none
      | _ => none
    else if b0 ≤ 0xF4 then
      match t with
      | b1 :: b2 :: b3 :: _ =>
        if 0x80 ≤ b1 && b1 ≤ 0xBF && 0x80 ≤ b2 && b2 ≤ 0xBF && 0x80 ≤ b3 && b3 ≤ 0xBF then
          let n := (b0 - 0xF0) * 262144 + (b1 - 0x80) * 4096 + (b2 - 0x80) * 64 + (b3 - 0x80)
          if n < 0x10000 then none
          else if 0x10FFFF < n then none
          else some (Char.ofNat n, 4)
        else none
      | _ => none
    else none

/-- Validating whole-slice UTF-8 decoding (`std::str::from_utf8`), with
explicit fuel (an upper bound on the number of scalar values). -/
def utf8DecodeAllAux : Nat → List Nat → Option (List Char)
  | _, [] => some []
  | 0, _ :: _ => none
  | fuel + 1, b :: t =>
    match utf8DecodeOne (b :: t) with
    | none => none
    | some (c, k) => (utf8DecodeAllAux fuel ((b :: t).drop k)).map (c :: ·)

/-- `std::str::from_utf8`: decode a whole byte slice, or fail. -/
def utf8DecodeAll (l : List Nat) : Option (List Char) :=
  utf8DecodeAllAux l.length l

/-! ## The ordered object container (`src/value.rs`)

`RidiculousStringMap` stores natural-like keys in a sorted map keyed by
`GraphicolexicalString` (modelled as a sorted association list) and all other
keys in an insertion-ordered map (modelled as an association list in
insertion order). -/

/-- `is_nat_str` from `src/value.rs`: the first byte is `0x31..=0x39` and all
remaining bytes are `0x30..=0x39`. -/
def is_nat_str (s : List Char) : Bool :=
  match strBytes s with
  | b :: tail => (0x31 ≤ b && b ≤ 0x39) && tail.all (fun byte => 0x30 ≤ byte && byte ≤ 0x39)
  | [] => false

/-- Lexicographic comparison of byte sequences (Rust `String`'s `Ord`). -/
def bytesCmp : List Nat → List Nat → Ordering
  | [], [] => .eq
  | [], _ :: _ => .lt
  | _ :: _, [] => .gt
  | a :: as_, b :: bs =>
    if a < b then .lt else if b < a then .gt else bytesCmp as_ bs

/-- `GraphicolexicalString::cmp`: byte length first, then lexicographic on
the bytes. -/
def glexCmp (a b : List Char) : Ordering :=
  match compare (strBytes a).length (strBytes b).length with
  | .gt => .gt
  | .lt => .lt
  | .eq => bytesCmp (strBytes a) (strBytes b)

/-- Strict `GraphicolexicalString` order. -/
def glexLt (a b : List Char) : Bool := decide (glexCmp a b = .lt)

/-- Insert into a `BTreeMap` keyed by `GraphicolexicalString`, modelled as an
association list sorted by `glexCmp`; returns the previous value bound to an
`Ordering`-equal key, if any. -/
def sortedInsert {V : Type} (k : List Char) (v : V) :
    List (List Char × V) → List (List Char × V) × Option V
  | [] => ([(k, v)], none)
  | (k2, v2) :: t =>
    match glexCmp k k2 with
    | .lt => ((k, v) :: (k2, v2) :: t, none)
    | .eq => ((k2, v) :: t, some v2)
    | .gt =>
      let (t2, old) := sortedInsert k v t
      ((k2, v2) :: t2, old)

/-- Insert into an `IndexMap`: an existing key keeps its position and gets
the new value (returning the old one); a new key is appended at the end. -/
def indexInsert {V : Type} (k : List Char) (v : V) :
    List (List Char × V) → List (List Char × V) × Option V
  | [] => ([(k, v)], none)
  | (k2, v2) :: t =>
    if k = k2 then ((k2, v) :: t, some v2)
    else
      let (t2, old) := indexInsert k v t
      ((k2, v2) :: t2, old)

/-- The dual-storage ordered object container from `src/value.rs`. -/
structure RidiculousStringMap (V : Type) where
  naturals : List (List Char × V)
  others : List (List Char × V)
  deriving Repr

namespace RidiculousStringMap

/-- `RidiculousStringMap::with_capacity`: the empty map. -/
def empty {V : Type} : RidiculousStringMap V := ⟨[], []⟩

/-- `RidiculousStringMap::len`. -/
def len {V : Type} (m : RidiculousStringMap V) : Nat :=
  m.naturals.length + m.others.length

/-- `RidiculousStringMap::insert`: keys equal to `"0"` or matching
`is_nat_str` go to the sorted bucket, all others to the insertion-ordered
bucket; returns the previously bound value if the key was present. -/
def insert {V : Type} (m : RidiculousStringMap V) (key : List Char) (val : V) :
    RidiculousStringMap V × Option V :=
  if key = ['0'] then
    let (n2, old) := sortedInsert key val m.naturals
    ({ m with naturals := n2 }, old)
  else if is_nat_str key then
    let (n2, old) := sortedInsert key val m.naturals
    ({ m with naturals := n2 }, old)
  else
    let (o2, old) := indexInsert key val m.others
    ({ m with others := o2 }, old)

/-- `RidiculousStringMap::iter` / `Iter::next`: all entries of the sorted
bucket, then all entries of the insertion-ordered bucket. -/
def iter {V : Type} (m : RidiculousStringMap V) : List (List Char × V) :=
  m.naturals ++ m.others

/-- Build a map by repeated insertion, ignoring the returned previous
values. -/
def ofList {V : Type} (l : List (List Char × V)) : RidiculousStringMap V :=
  l.foldl (fun m kv => (m.insert kv.1 kv.2).1) empty

end RidiculousStringMap

/-- Key classification used by `insert`: `"0"` or natural-like. -/
def natKey (k : List Char) : Bool := k = ['0'] || is_nat_str k

/-- Repeated `sortedInsert` (insertion sort by `glexCmp`). -/
def sortNats {V : Type} (l : List (List Char × V)) : List (List Char × V) :=
  l.foldl (fun acc kv => (sortedInsert kv.1 kv.2 acc).1) []

/-- The numeric value of a decimal byte string (most significant first). -/
def decimalVal (bytes : List Nat) : Nat :=
  bytes.foldl (fun acc b => acc * 10 + (b - 0x30)) 0

/-! ### UTF-8 lemmas -/

theorem char_toNat_valid (c : Char) :
    c.toNat < 0xD800 ∨ (0xDFFF < c.toNat ∧ c.toNat < 0x110000) := by
  have h := c.valid
  unfold UInt32.isValidChar Nat.isValidChar at h
  exact h

theorem utf8EncodeChar_length_pos (c : Char) : 0 < (utf8EncodeChar c).length := by
  unfold utf8EncodeChar
  by_cases h1 : c.toNat < 0x80
  · simp [h1]
  · by_cases h2 : c.toNat < 0x800
    · simp [h1, h2]
    · by_cases h3 : c.toNat < 0x10000 <;> simp [h1, h2, h3]

/-- Decoding the UTF-8 encoding of a scalar value from the front of a slice
returns that scalar value and the encoding's byte count. -/
theorem utf8DecodeOne_encode (c : Char) (rest : List Nat) :
    utf8DecodeOne (utf8EncodeChar c ++ rest) = some (c, (utf8EncodeChar c).length) := by
  have hv := char_toNat_valid c
  have hoc := Char.ofNat_toNat c
  unfold utf8EncodeChar utf8DecodeOne
  by_cases h1 : c.toNat < 0x80
  · simp [h1, hoc]
  · by_cases h2 : c.toNat < 0x800
    · have d1 : ¬ (0xC0 + c.toNat / 64 < 0x80) := by omega
      have d2 : ¬ (0xC0 + c.toNat / 64 < 0xC2) := by omega
      have d3 : 0xC0 + c.toNat / 64 ≤ 0xDF := by omega
      have d4 : (0xC0 + c.toNat / 64 - 0xC0) * 64 + (0x80 + c.toNat % 64 - 0x80)
          = c.toNat := by omega
      simp only [h1, h2, if_false, if_true, List.cons_append, List.nil_append]
      simp [d1, d2, d3]
      refine ⟨by omega, ?_⟩
      rw [show c.toNat / 64 * 64 + c.toNat % 64 = c.toNat by omega]
      exact hoc
    · by_cases h3 : c.toNat < 0x10000
      · have d1 : ¬ (0xE0 + c.toNat / 4096 < 0x80) := by omega
        have d2 : ¬ (0xE0 + c.toNat / 4096 < 0xC2) := by omega
        have d3 : ¬ (0xE0 + c.toNat / 4096 ≤ 0xDF) := by omega
        have d4 : 0xE0 + c.toNat / 4096 ≤ 0xEF := by omega
        have d5 : (0xE0 + c.toNat / 4096 - 0xE0) * 4096
            + (0x80 + c.toNat / 64 % 64 - 0x80) * 64 + (0x80 + c.toNat % 64 - 0x80)
            = c.toNat := by omega
        have d6 : ¬ (c.toNat < 0x800) := h2
        have d7 : ¬ (0xD800 ≤ c.toNat ∧ c.toNat ≤ 0xDFFF) := by omega
        simp only [h1, if_false, h2, h3, if_true, List.cons_append, List.nil_append]
        simp [d1, d2, d3, d4]
        refine ⟨⟨by omega, by omega⟩, by omega, by omega, ?_⟩
        rw [show c.toNat / 4096 * 4096 + c.toNat / 64 % 64 * 64 + c.toNat % 64
          = c.toNat by omega]
        exact hoc
      · have h4 : c.toNat ≤ 0x10FFFF := by omega
        have d1 : ¬ (0xF0 + c.toNat / 262144 < 0x80) := by omega
        have d2 : ¬ (0xF0 + c.toNat / 262144 < 0xC2) := by omega
        have d3 : ¬ (0xF0 + c.toNat / 262144 ≤ 0xDF) := by omega
        have d4 : ¬ (0xF0 + c.toNat / 262144 ≤ 0xEF) := by omega
        have d5 : 0xF0 + c.toNat / 262144 ≤ 0xF4 := by omega
        have d6 : (0xF0 + c.toNat / 262144 - 0xF0) * 262144
            + (0x80 + c.toNat / 4096 % 64 - 0x80) * 4096
            + (0x80 + c.toNat / 64 % 64 - 0x80) * 64 + (0x80 + c.toNat % 64 - 0x80)
            = c.toNat := by omega
        have d7 : ¬ (c.toNat < 0x10000) := h3
        have d8 : ¬ (0x10FFFF < c.toNat) := by omega
        simp only [h1, if_false, h2, h3, List.cons_append, List.nil_append]
        simp [d1, d2, d3, d4, d5]
        refine ⟨⟨⟨by omega, by omega⟩, by omega⟩, by omega, by omega, ?_⟩
        rw [show c.toNat / 262144 * 262144 + c.toNat / 4096 % 64 * 4096
          + c.toNat / 64 % 64 * 64 + c.toNat % 64 = c.toNat by omega]
        exact hoc

theorem strBytes_cons (c : Char) (t : List Char) :
    strBytes (c :: t) = utf8EncodeChar c ++ strBytes t := by
  simp [strBytes]

theorem strBytes_length_ge (s : List Char) : s.length ≤ (strBytes s).length := by
  induction s with
  | nil => simp [strBytes]
  | cons c t ih =>
    rw [strBytes_cons]
    have := utf8EncodeChar_length_pos c
    simp only [List.length_append, List.length_cons]
    omega

theorem utf8DecodeAllAux_encode :
    ∀ (fuel : Nat) (s : List Char), s.length ≤ fuel →
      utf8DecodeAllAux fuel (strBytes s) = some s := by
  intro fuel
  induction fuel with
  | zero =>
    intro s hs
    have : s = [] := by cases s <;> simp_all
    subst this
    simp [strBytes, utf8DecodeAllAux]
  | succ f ih =>
    intro s hs
    cases s with
    | nil => simp [strBytes, utf8DecodeAllAux]
    | cons c t =>
      rw [strBytes_cons]
      have hpos := utf8EncodeChar_length_pos c
      obtain ⟨b, bs, hb⟩ : ∃ b bs, utf8EncodeChar c ++ strBytes t = b :: bs := by
        cases h : utf8EncodeChar c with
        | nil => rw [h] at hpos; simp at hpos
        | cons x xs => exact ⟨x, xs ++ strBytes t, by simp [h]⟩
      rw [hb]
      show (match utf8DecodeOne (b :: bs) with
        | none => none
        | some (c, k) => (utf8DecodeAllAux f ((b :: bs).drop k)).map (c :: ·)) = some (c :: t)
      rw [← hb, utf8DecodeOne_encode]
      simp only
      rw [List.drop_left]
      rw [ih t (by simp only [List.length_cons] at hs; omega)]
      rfl

/-- `std::str::from_utf8` recovers a string from its UTF-8 bytes. -/
theorem utf8DecodeAll_encode (s : List Char) :
    utf8DecodeAll (strBytes s) = some s :=
  utf8DecodeAllAux_encode _ s (strBytes_length_ge s)

/-- UTF-8 encoding is injective on strings. -/
theorem strBytes_inj : ∀ {a b : List Char}, strBytes a = strBytes b → a = b := by
  intro a
  induction a with
  | nil =>
    intro b h
    cases b with
    | nil => rfl
    | cons c t =>
      exfalso
      have h2 : utf8EncodeChar c ++ strBytes t = [] := by
        rw [← strBytes_cons]
        exact h.symm
      have h3 := List.append_eq_nil.mp h2
      have h4 := utf8EncodeChar_length_pos c
      rw [h3.1] at h4
      simp at h4
  | cons c t ih =>
    intro b h
    cases b with
    | nil =>
      exfalso
      have h2 : utf8EncodeChar c ++ strBytes t = [] := by
        rw [← strBytes_cons]
        exact h
      have h3 := List.append_eq_nil.mp h2
      have h4 := utf8EncodeChar_length_pos c
      rw [h3.1] at h4
      simp at h4
    | cons c2 t2 =>
      rw [strBytes_cons, strBytes_cons] at h
      have h1 := utf8DecodeOne_encode c (strBytes t)
      have h2 := utf8DecodeOne_encode c2 (strBytes t2)
      rw [h] at h1
      rw [h1] at h2
      have hc : c = c2 := by injection h2 with h3; exact (Prod.mk.injEq _ _ _ _ ▸ h3).1
      subst hc
      have hlen : (utf8EncodeChar c).length = (utf8EncodeChar c).length := rfl
      have htails : strBytes t = strBytes t2 := by
        have := List.append_cancel_left h
        exact this
      rw [ih htails]

/-! ### Order lemmas for `GraphicolexicalString` -/

theorem bytesCmp_eq_iff : ∀ a b : List Nat, bytesCmp a b = .eq ↔ a = b := by
  intro a
  induction a with
  | nil => intro b; cases b <;> simp [bytesCmp]
  | cons x xs ih =>
    intro b
    cases b with
    | nil => simp [bytesCmp]
    | cons y ys =>
      unfold bytesCmp
      by_cases h1 : x < y
      · simp [h1]
        omega
      · by_cases h2 : y < x
        · simp [h1, h2]
          omega
        · have hxy : x = y := by omega
          subst hxy
          simp [h1, h2, ih ys]

theorem bytesCmp_gt_iff : ∀ a b : List Nat, bytesCmp a b = .gt ↔ bytesCmp b a = .lt := by
  intro a
  induction a with
  | nil => intro b; cases b <;> simp [bytesCmp]
  | cons x xs ih =>
    intro b
    cases b with
    | nil => simp [bytesCmp]
    | cons y ys =>
      unfold bytesCmp
      by_cases h1 : x < y
      · simp [h1, Nat.lt_asymm h1, Nat.ne_of_lt h1]
      · by_cases h2 : y < x
        · simp [h1, h2]
        · have hxy : x = y := by omega
          subst hxy
          simp [h1, h2, ih ys]

theorem bytesCmp_lt_trans :
    ∀ a b c : List Nat, bytesCmp a b = .lt → bytesCmp b c = .lt → bytesCmp a c = .lt := by
  intro a
  induction a with
  | nil =>
    intro b c hab hbc
    cases c with
    | nil =>
      cases b with
      | nil => simp [bytesCmp] at hab
      | cons y ys => simp [bytesCmp] at hbc
    | cons z zs => simp [bytesCmp]
  | cons x xs ih =>
    intro b c hab hbc
    cases b with
    | nil => simp [bytesCmp] at hab
    | cons y ys =>
      cases c with
      | nil => simp [bytesCmp] at hbc
      | cons z zs =>
        unfold bytesCmp at hab hbc ⊢
        by_cases h1 : x < y
        · by_cases h2 : y < z
          · simp [Nat.lt_trans h1 h2]
          · by_cases h3 : z < y
            · simp [h2, h3] at hbc
            · have : y = z := by omega
              subst this
              simp [h1]
        · by_cases h1b : y < x
          · simp [h1, h1b] at hab
          · have hxy : x = y := by omega
            subst hxy
            simp [h1] at hab
            by_cases h2 : x < z
            · simp [h2]
            · by_cases h3 : z < x
              · simp [h2, h3] at hbc
              · have : x = z := by omega
                subst this
                simp [h2] at hbc ⊢
                exact ih ys zs hab hbc

theorem glexCmp_eq_iff (a b : List Char) : glexCmp a b = .eq ↔ a = b := by
  unfold glexCmp
  rcases h : compare (strBytes a).length (strBytes b).length with hc | hc | hc
  · simp
    intro hab
    subst hab
    simp [Nat.compare_eq_lt] at h
  · have hlen := Nat.compare_eq_eq.mp h
    simp [bytesCmp_eq_iff]
    constructor
    · intro hb
      exact strBytes_inj hb
    · intro hab
      rw [hab]
  · simp
    intro hab
    subst hab
    simp [Nat.compare_eq_gt] at h

theorem glexCmp_gt_iff (a b : List Char) : glexCmp a b = .gt ↔ glexCmp b a = .lt := by
  unfold glexCmp
  rcases h : compare (strBytes a).length (strBytes b).length with hc | hc | hc
  · rw [Nat.compare_eq_lt] at h
    rw [show compare (strBytes b).length (strBytes a).length = .gt from
      Nat.compare_eq_gt.mpr h]
    simp
  · have hlen := Nat.compare_eq_eq.mp h
    rw [show compare (strBytes b).length (strBytes a).length = .eq from
      Nat.compare_eq_eq.mpr hlen.symm]
    simp [bytesCmp_gt_iff]
  · rw [Nat.compare_eq_gt] at h
    rw [show compare (strBytes b).length (strBytes a).length = .lt from
      Nat.compare_eq_lt.mpr h]
    simp

theorem glexLt_iff (a b : List Char) :
    glexLt a b = true ↔
      ((strBytes a).length < (strBytes b).length
        ∨ ((strBytes a).length = (strBytes b).length
            ∧ bytesCmp (strBytes a) (strBytes b) = .lt)) := by
  unfold glexLt glexCmp
  rcases h : compare (strBytes a).length (strBytes b).length with hc | hc | hc
  · rw [Nat.compare_eq_lt] at h
    simp [h]
  · rw [Nat.compare_eq_eq] at h
    simp [h]
  · rw [Nat.compare_eq_gt] at h
    simp only [decide_eq_true_eq]
    constructor
    · intro hx
      cases hx
    · rintro (h2 | ⟨h2, _⟩) <;> omega

theorem glexLt_trans {a b c : List Char} (hab : glexLt a b = true) (hbc : glexLt b c = true) :
    glexLt a c = true := by
  rw [glexLt_iff] at hab hbc ⊢
  rcases hab with h1 | ⟨h1, h1b⟩
  · rcases hbc with h2 | ⟨h2, h2b⟩
    · exact Or.inl (Nat.lt_trans h1 h2)
    · exact Or.inl (h2 ▸ h1)
  · rcases hbc with h2 | ⟨h2, h2b⟩
    · exact Or.inl (h1 ▸ h2)
    · exact Or.inr ⟨h1.trans h2, bytesCmp_lt_trans _ _ _ h1b h2b⟩


/-! ### `RidiculousStringMap` lemmas -/

section MapLemmas

variable {V : Type}

/-- The sorting relation on entries: strict `GraphicolexicalString` order of
the keys. -/
def entryLt (p q : List Char × V) : Prop := glexLt p.1 q.1 = true

theorem sortedInsert_fst_keys (k : List Char) (v : V) :
    ∀ (acc : List (List Char × V)) (x : List Char × V),
      x ∈ (sortedInsert k v acc).1 → x.1 = k ∨ x.1 ∈ acc.map Prod.fst := by
  intro acc
  induction acc with
  | nil =>
    intro x hx
    have hx2 : x ∈ [(k, v)] := hx
    left
    rw [List.mem_singleton.mp hx2]
  | cons p t ih =>
    rcases p with ⟨k2, v2⟩
    intro x hx
    unfold sortedInsert at hx
    rcases h : glexCmp k k2 with hc | hc | hc <;> rw [h] at hx <;> simp only at hx
    · rcases List.mem_cons.mp hx with hx2 | hx2
      · left
        rw [hx2]
      · rcases List.mem_cons.mp hx2 with hx3 | hx3
        · right
          rw [hx3]
          exact List.mem_map_of_mem Prod.fst (List.mem_cons_self _ _)
        · right
          simp only [List.map_cons, List.mem_cons]
          exact Or.inr (List.mem_map_of_mem Prod.fst hx3)
    · rcases List.mem_cons.mp hx with hx2 | hx2
      · right
        rw [hx2]
        simp only [List.map_cons]
        exact List.mem_cons_self _ _
      · right
        simp only [List.map_cons, List.mem_cons]
        exact Or.inr (List.mem_map_of_mem Prod.fst hx2)
    · rcases List.mem_cons.mp hx with hx2 | hx2
      · right
        rw [hx2]
        exact List.mem_map_of_mem Prod.fst (List.mem_cons_self _ _)
      · rcases ih x hx2 with h2 | h2
        · exact Or.inl h2
        · right
          simp only [List.map_cons, List.mem_cons]
          exact Or.inr h2

theorem sortedInsert_sorted (k : List Char) (v : V) :
    ∀ (acc : List (List Char × V)), acc.Sorted entryLt →
      ((sortedInsert k v acc).1).Sorted entryLt := by
  intro acc
  induction acc with
  | nil =>
    intro _
    simp [sortedInsert]
  | cons p t ih =>
    intro hs
    obtain ⟨k2, v2⟩ := p
    rw [List.sorted_cons] at hs
    obtain ⟨hall, ht⟩ := hs
    unfold sortedInsert
    rcases h : glexCmp k k2 with hc | hc | hc <;> simp only
    · rw [List.sorted_cons]
      constructor
      · intro x hx
        rcases List.mem_cons.mp hx with hx2 | hx2
        · subst hx2
          show glexLt k k2 = true
          unfold glexLt
          simp [h]
        · have h1 : glexLt k k2 = true := by unfold glexLt; simp [h]
          exact glexLt_trans h1 (hall x hx2)
      · rw [List.sorted_cons]
        exact ⟨hall, ht⟩
    · rw [List.sorted_cons]
      exact ⟨hall, ht⟩
    · rw [List.sorted_cons]
      constructor
      · intro x hx
        rcases sortedInsert_fst_keys k v t x hx with h2 | h2
        · show glexLt k2 x.1 = true
          rw [h2]
          unfold glexLt
          simp [(glexCmp_gt_iff k k2).mp h]
        · obtain ⟨q, hq, hqx⟩ := List.mem_map.mp h2
          show glexLt k2 x.1 = true
          rw [← hqx]
          exact hall q hq
      · exact ih ht

theorem sortedInsert_perm (k : List Char) (v : V) :
    ∀ (acc : List (List Char × V)), (∀ q ∈ acc, k ≠ q.1) →
      ((sortedInsert k v acc).1).Perm ((k, v) :: acc) := by
  intro acc
  induction acc with
  | nil =>
    intro _
    simp [sortedInsert]
  | cons p t ih =>
    intro hne
    obtain ⟨k2, v2⟩ := p
    unfold sortedInsert
    rcases h : glexCmp k k2 with hc | hc | hc <;> simp only
    · exact List.Perm.refl _
    · exact absurd (glexCmp_eq_iff k k2 |>.mp h) (hne (k2, v2) (by simp))
    · have hperm := ih (fun q hq => hne q (List.mem_cons_of_mem _ hq))
      exact (hperm.cons (k2, v2)).trans (List.Perm.swap (k, v) (k2, v2) t)

theorem indexInsert_notMem (k : List Char) (v : V) :
    ∀ (ot : List (List Char × V)), (∀ q ∈ ot, k ≠ q.1) →
      indexInsert k v ot = (ot ++ [(k, v)], none) := by
  intro ot
  induction ot with
  | nil => intro _; simp [indexInsert]
  | cons p t ih =>
    intro hne
    obtain ⟨k2, v2⟩ := p
    have h1 : k ≠ k2 := hne (k2, v2) (by simp)
    unfold indexInsert
    rw [if_neg h1, ih (fun q hq => hne q (List.mem_cons_of_mem _ hq))]
    rfl

theorem insert_cases (m : RidiculousStringMap V) (k : List Char) (v : V) :
    (m.insert k v).1
      = if natKey k then { m with naturals := (sortedInsert k v m.naturals).1 }
        else { m with others := (indexInsert k v m.others).1 } := by
  unfold RidiculousStringMap.insert natKey
  by_cases h0 : k = ['0']
  · simp [h0]
  · by_cases hn : is_nat_str k <;> simp [h0, hn]

theorem ofList_split :
    ∀ (l : List (List Char × V)) (na ot : List (List Char × V)),
      (∀ p ∈ l, ∀ q ∈ ot, p.1 ≠ q.1) →
      (l.map Prod.fst).Nodup →
      l.foldl (fun (m : RidiculousStringMap V) kv => (m.insert kv.1 kv.2).1) ⟨na, ot⟩
        = ⟨(l.filter fun kv => natKey kv.1).foldl
              (fun acc kv => (sortedInsert kv.1 kv.2 acc).1) na,
           ot ++ (l.filter fun kv => !natKey kv.1)⟩ := by
  intro l
  induction l with
  | nil =>
    intro na ot _ _
    simp
  | cons kv t ih =>
    intro na ot hdisj hnodup
    obtain ⟨k, v⟩ := kv
    simp only [List.foldl_cons]
    rw [insert_cases]
    by_cases hk : natKey k
    · rw [if_pos hk]
      have ht : (t.map Prod.fst).Nodup := (List.nodup_cons.mp hnodup).2
      rw [ih _ _ (fun p hp q hq => hdisj p (List.mem_cons_of_mem _ hp) q hq) ht]
      simp [List.filter_cons, hk]
    · rw [if_neg hk]
      have hkey : ∀ q ∈ ot, k ≠ q.1 :=
        fun q hq => hdisj (k, v) (by simp) q hq
      show RidiculousStringMap.mk _ _ = _
      rw [indexInsert_notMem k v ot hkey]
      have hdisj2 : ∀ p ∈ t, ∀ q ∈ ot ++ [(k, v)], p.1 ≠ q.1 := by
        intro p hp q hq
        rcases List.mem_append.mp hq with hq2 | hq2
        · exact hdisj p (List.mem_cons_of_mem _ hp) q hq2
        · have : q = (k, v) := by simpa using hq2
          subst this
          have hknot := (List.nodup_cons.mp hnodup).1
          intro hcontra
          exact hknot (hcontra ▸ List.mem_map_of_mem Prod.fst hp)
      have ht : (t.map Prod.fst).Nodup := (List.nodup_cons.mp hnodup).2
      rw [ih _ _ hdisj2 ht]
      simp [List.filter_cons, hk]

theorem foldl_sortedInsert_perm :
    ∀ (l acc : List (List Char × V)),
      (∀ p ∈ l, ∀ q ∈ acc, p.1 ≠ q.1) →
      (l.map Prod.fst).Nodup →
      (l.foldl (fun acc kv => (sortedInsert kv.1 kv.2 acc).1) acc).Perm (acc ++ l) := by
  intro l
  induction l with
  | nil => intro acc _ _; simp
  | cons kv t ih =>
    intro acc hdisj hnodup
    obtain ⟨k, v⟩ := kv
    simp only [List.foldl_cons]
    have hperm1 : ((sortedInsert k v acc).1).Perm ((k, v) :: acc) :=
      sortedInsert_perm k v acc (fun q hq => hdisj (k, v) (by simp) q hq)
    have hdisj2 : ∀ p ∈ t, ∀ q ∈ (sortedInsert k v acc).1, p.1 ≠ q.1 := by
      intro p hp q hq
      have hq2 : q ∈ (k, v) :: acc := hperm1.mem_iff.mp hq
      rcases List.mem_cons.mp hq2 with hq3 | hq3
      · subst hq3
        have hknot := (List.nodup_cons.mp hnodup).1
        intro hcontra
        exact hknot (hcontra ▸ List.mem_map_of_mem Prod.fst hp)
      · exact hdisj p (List.mem_cons_of_mem _ hp) q hq3
    have ht : (t.map Prod.fst).Nodup := (List.nodup_cons.mp hnodup).2
    have hrec := ih ((sortedInsert k v acc).1) hdisj2 ht
    refine hrec.trans ((hperm1.append_right t).trans ?_)
    have : ((k, v) :: acc) ++ t = (k, v) :: (acc ++ t) := by simp
    rw [this]
    exact List.perm_middle.symm

theorem foldl_sortedInsert_sorted :
    ∀ (l acc : List (List Char × V)), acc.Sorted entryLt →
      (l.foldl (fun acc kv => (sortedInsert kv.1 kv.2 acc).1) acc).Sorted entryLt := by
  intro l
  induction l with
  | nil => intro acc h; exact h
  | cons kv t ih =>
    intro acc h
    simp only [List.foldl_cons]
    exact ih _ (sortedInsert_sorted kv.1 kv.2 acc h)

end MapLemmas

/-! ### Decimal-value lemmas: Grapho-Lex order is numeric order on
natural-like keys -/

theorem decimalVal_acc (bs : List Nat) :
    ∀ acc : Nat, bs.foldl (fun acc b => acc * 10 + (b - 0x30)) acc
      = acc * 10 ^ bs.length + decimalVal bs := by
  induction bs with
  | nil => intro acc; simp [decimalVal]
  | cons b t ih =>
    intro acc
    have h1 : decimalVal (b :: t) = (b - 0x30) * 10 ^ t.length + decimalVal t := by
      have h0 : decimalVal (b :: t)
          = t.foldl (fun acc b => acc * 10 + (b - 0x30)) (0 * 10 + (b - 0x30)) := rfl
      rw [h0, ih]
      simp
    rw [List.foldl_cons, ih, h1]
    simp only [List.length_cons, pow_succ]
    ring

theorem decimalVal_cons (b : Nat) (t : List Nat) :
    decimalVal (b :: t) = (b - 0x30) * 10 ^ t.length + decimalVal t := by
  have h0 : decimalVal (b :: t)
      = t.foldl (fun acc b => acc * 10 + (b - 0x30)) (0 * 10 + (b - 0x30)) := rfl
  rw [h0, decimalVal_acc]
  simp

theorem decimalVal_lt (bs : List Nat) (h : ∀ b ∈ bs, b ≤ 0x39) :
    decimalVal bs < 10 ^ bs.length := by
  induction bs with
  | nil => simp [decimalVal]
  | cons b t ih =>
    rw [decimalVal_cons]
    have hb : b - 0x30 ≤ 9 := by
      have := h b (by simp)
      omega
    have ht := ih (fun x hx => h x (by simp [hx]))
    have h1 : (b - 0x30) * 10 ^ t.length ≤ 9 * 10 ^ t.length :=
      Nat.mul_le_mul_right _ hb
    have h2 : (0:Nat) < 10 ^ t.length := Nat.pos_pow_of_pos _ (by omega)
    simp only [List.length_cons, pow_succ]
    omega

theorem decimalVal_ge (b : Nat) (t : List Nat) (hb : 0x31 ≤ b) :
    10 ^ t.length ≤ decimalVal (b :: t) := by
  rw [decimalVal_cons]
  have h1 : 1 * 10 ^ t.length ≤ (b - 0x30) * 10 ^ t.length :=
    Nat.mul_le_mul_right _ (by omega)
  omega

theorem dv_lt_of_head_lt (a b : Nat) (as bs : List Nat)
    (hlen : as.length = bs.length) (hdig : ∀ x ∈ as, x ≤ 0x39)
    (ha : 0x30 ≤ a) (hab : a < b) :
    decimalVal (a :: as) < decimalVal (b :: bs) := by
  rw [decimalVal_cons, decimalVal_cons, hlen]
  have h1 := decimalVal_lt as hdig
  rw [hlen] at h1
  have h2 : (a - 0x30) * 10 ^ bs.length + 10 ^ bs.length ≤ (b - 0x30) * 10 ^ bs.length := by
    have : (a - 0x30) + 1 ≤ b - 0x30 := by omega
    calc (a - 0x30) * 10 ^ bs.length + 10 ^ bs.length
        = ((a - 0x30) + 1) * 10 ^ bs.length := by ring
      _ ≤ (b - 0x30) * 10 ^ bs.length := Nat.mul_le_mul_right _ this
  omega

theorem bytesCmp_digits :
    ∀ (A B : List Nat), A.length = B.length →
      (∀ x ∈ A, 0x30 ≤ x ∧ x ≤ 0x39) → (∀ x ∈ B, 0x30 ≤ x ∧ x ≤ 0x39) →
      (bytesCmp A B = .lt ↔ decimalVal A < decimalVal B) := by
  intro A
  induction A with
  | nil =>
    intro B hlen _ _
    have : B = [] := by cases B <;> simp_all
    subst this
    simp [bytesCmp]
  | cons a as ih =>
    intro B hlen hA hB
    cases B with
    | nil => simp at hlen
    | cons b bs =>
      simp only [List.length_cons] at hlen
      have hlen2 : as.length = bs.length := by omega
      unfold bytesCmp
      by_cases h1 : a < b
      · simp only [h1, if_true]
        constructor
        · intro _
          exact dv_lt_of_head_lt a b as bs hlen2 (fun x hx => (hA x (by simp [hx])).2)
            (hA a (by simp)).1 h1
        · intro _
          trivial
      · by_cases h2 : b < a
        · simp only [h1, h2, if_false, if_true]
          have hba : decimalVal (b :: bs) < decimalVal (a :: as) :=
            dv_lt_of_head_lt b a bs as hlen2.symm (fun x hx => (hB x (by simp [hx])).2)
              (hB b (by simp)).1 h2
          constructor
          · intro hx
            cases hx
          · intro hx
            omega
        · have hab : a = b := by omega
          subst hab
          simp only [h1, h2, if_false]
          rw [ih bs hlen2 (fun x hx => hA x (by simp [hx])) (fun x hx => hB x (by simp [hx]))]
          rw [decimalVal_cons, decimalVal_cons, hlen2]
          omega

theorem natKey_shape (k : List Char) (h : natKey k = true) :
    ∃ a as, strBytes k = a :: as ∧ (0x30 ≤ a ∧ a ≤ 0x39)
      ∧ (∀ x ∈ as, 0x30 ≤ x ∧ x ≤ 0x39) ∧ (as ≠ [] → 0x31 ≤ a) := by
  unfold natKey at h
  rcases Bool.or_eq_true_iff.mp h with h0 | hn
  · have hk : k = ['0'] := by simpa using h0
    subst hk
    refine ⟨0x30, [], by decide, by omega, by simp, by simp⟩
  · unfold is_nat_str at hn
    rcases hb : strBytes k with _ | ⟨b, tail⟩
    · rw [hb] at hn
      simp at hn
    · rw [hb] at hn
      simp only [Bool.and_eq_true, decide_eq_true_eq, List.all_eq_true] at hn
      refine ⟨b, tail, rfl, by omega, ?_, fun _ => by omega⟩
      intro x hx
      have := hn.2 x hx
      simp at this
      omega

/-- On natural-like keys, the Grapho-Lex order coincides with the numeric
order of the decimal values. -/
theorem glexLt_nat_iff (k1 k2 : List Char)
    (h1 : natKey k1 = true) (h2 : natKey k2 = true) :
    (glexLt k1 k2 = true ↔ decimalVal (strBytes k1) < decimalVal (strBytes k2)) := by
  obtain ⟨a, as, hA, haRange, hasRange, haLead⟩ := natKey_shape k1 h1
  obtain ⟨b, bs, hB, hbRange, hbsRange, hbLead⟩ := natKey_shape k2 h2
  rw [glexLt_iff, hA, hB]
  rcases Nat.lt_trichotomy (a :: as).length (b :: bs).length with hlt | heq | hgt
  · have hbs : bs ≠ [] := by
      simp only [List.length_cons] at hlt
      cases bs
      · simp at hlt
      · simp
    have hub := decimalVal_lt (a :: as) (by
      intro x hx
      rcases List.mem_cons.mp hx with hx2 | hx2
      · omega
      · exact (hasRange x hx2).2)
    have hlb := decimalVal_ge b bs (hbLead hbs)
    have hpow : 10 ^ (a :: as).length ≤ 10 ^ bs.length := by
      apply Nat.pow_le_pow_right (by omega)
      simp only [List.length_cons] at hlt ⊢
      omega
    constructor
    · intro _
      omega
    · intro _
      exact Or.inl hlt
  · have hlen2 : as.length = bs.length := by
      simp only [List.length_cons] at heq
      omega
    have hcmp := bytesCmp_digits (a :: as) (b :: bs) heq
      (by
        intro x hx
        rcases List.mem_cons.mp hx with hx2 | hx2
        · omega
        · exact hasRange x hx2)
      (by
        intro x hx
        rcases List.mem_cons.mp hx with hx2 | hx2
        · omega
        · exact hbsRange x hx2)
    constructor
    · rintro (hL | ⟨_, hL⟩)
      · omega
      · exact hcmp.mp hL
    · intro hdv
      exact Or.inr ⟨heq, hcmp.mpr hdv⟩
  · have has : as ≠ [] := by
      simp only [List.length_cons] at hgt
      cases as
      · simp at hgt
      · simp
    have hub := decimalVal_lt (b :: bs) (by
      intro x hx
      rcases List.mem_cons.mp hx with hx2 | hx2
      · omega
      · exact (hbsRange x hx2).2)
    have hlb := decimalVal_ge a as (haLead has)
    have hpow : 10 ^ (b :: bs).length ≤ 10 ^ as.length := by
      apply Nat.pow_le_pow_right (by omega)
      simp only [List.length_cons] at hgt ⊢
      omega
    constructor
    · rintro (hL | ⟨hL, _⟩) <;> omega
    · intro hdv
      omega

/-- C1: iterating a `RidiculousStringMap` built by `insert` from a sequence of
distinct-key entries yields first exactly the natural-like entries, sorted by
the Grapho-Lex order (length first, byte-lexicographic tie-break, which on
natural-like keys coincides with numeric order), and then all remaining
entries in their insertion order. -/
theorem claim_C1 {V : Type} (l : List (List Char × V))
    (hd : (l.map Prod.fst).Nodup) :
    (RidiculousStringMap.ofList l).iter
        = sortNats (l.filter fun kv => natKey kv.1)
          ++ (l.filter fun kv => !natKey kv.1)
    ∧ (sortNats (l.filter fun kv => natKey kv.1)).Perm
        (l.filter fun kv => natKey kv.1)
    ∧ (sortNats (l.filter fun kv => natKey kv.1)).Sorted entryLt
    ∧ (∀ k1 k2 : List Char, natKey k1 = true → natKey k2 = true →
        (glexLt k1 k2 = true ↔ decimalVal (strBytes k1) < decimalVal (strBytes k2))) := by
  have hfilterNodup : ((l.filter fun kv => natKey kv.1).map Prod.fst).Nodup :=
    ((List.filter_sublist l).map Prod.fst).nodup hd
  refine ⟨?_, ?_, ?_, glexLt_nat_iff⟩
  · unfold RidiculousStringMap.ofList RidiculousStringMap.iter
    rw [show (RidiculousStringMap.empty : RidiculousStringMap V)
        = ⟨[], []⟩ from rfl]
    rw [ofList_split l [] [] (by simp) hd]
    rfl
  · have h := foldl_sortedInsert_perm (l.filter fun kv => natKey kv.1) []
      (by simp) hfilterNodup
    simpa [sortNats] using h
  · exact foldl_sortedInsert_sorted _ [] (by simp)



/-- Witness for C1 at a concrete insertion sequence: `"2"` before `"10"`
(numeric order), then `"b"` (insertion order). -/
theorem claim_C1_witness :
    (RidiculousStringMap.ofList (V := Nat) [(['2'], 1), (['b'], 2), (['1', '0'], 3)]).iter
      = [(['2'], 1), (['1', '0'], 3), (['b'], 2)] := by
  have h := claim_C1 (V := Nat) [(['2'], 1), (['b'], 2), (['1', '0'], 3)] (by decide)
  rw [h.1]
  decide


/-! ## Decimal-to-float conversion (the `strtod` dependency)

Modelled from the spec: the crate's textual number parsing delegates the
final conversion to the external `strtod` crate, "a correct decimal-to-float
routine" (spec §4.5).  `strtodModel` implements correctly-rounded (round to
nearest, ties to even) conversion of a decimal token to an IEEE-754 binary64
bit pattern, with overflow to the infinities and signed zeros preserved. -/

/-- Round `num / den` to the nearest integer, ties to even. -/
def roundRatHalfEven (num den : Nat) : Nat :=
  let q := num / den
  let r := num % den
  if 2 * r < den then q
  else if den < 2 * r then q + 1
  else if q % 2 = 0 then q else q + 1

/-- Is `num / den ≥ 2 ^ e`? -/
def ratGePow2 (num den : Nat) (e : Int) : Bool :=
  if 0 ≤ e then den * 2 ^ e.toNat ≤ num
  else den ≤ num * 2 ^ (-e).toNat

/-- Fuel-based floor of the base-2 logarithm (kernel-reducible). -/
def natLog2Aux : Nat → Nat → Nat
  | 0, _ => 0
  | fuel + 1, n => if n ≤ 1 then 0 else natLog2Aux fuel (n / 2) + 1

/-- `floor (log2 n)` for `n ≥ 1`. -/
def natLog2 (n : Nat) : Nat := natLog2Aux n n

/-- The binary exponent `E` with `2 ^ (E-1) ≤ num/den < 2 ^ E`
(for `num, den ≥ 1`). -/
def findExp (num den : Nat) : Int :=
  let e0 : Int := (natLog2 num : Int) - (natLog2 den : Int)
  if ratGePow2 num den e0 then e0 + 1 else e0

/-- Round `num / den * 2 ^ k` to the nearest integer, ties to even. -/
def scaledRound (num den : Nat) (k : Int) : Nat :=
  if 0 ≤ k then roundRatHalfEven (num * 2 ^ k.toNat) den
  else roundRatHalfEven num (den * 2 ^ (-k).toNat)

/-- Correctly round the decimal `± D × 10 ^ e` to a binary64 bit pattern. -/
def roundDecToF64 (neg : Bool) (D : Nat) (e : Int) : Nat :=
  if D = 0 then (if neg then negZeroBits else 0)
  else
    let num := if 0 ≤ e then D * 10 ^ e.toNat else D
    let den := if 0 ≤ e then 1 else 10 ^ (-e).toNat
    let E := findExp num den
    if E ≤ -1022 then
      (if neg then 2 ^ 63 else 0) + scaledRound num den 1074
    else
      let m := scaledRound num den (53 - E)
      let E2 := if m = 2 ^ 53 then E + 1 else E
      let m2 := if m = 2 ^ 53 then 2 ^ 52 else m
      if 1023 < E2 - 1 then (if neg then negInfBits else posInfBits)
      else (if neg then 2 ^ 63 else 0) + (E2 - 1 + 1023).toNat * 2 ^ 52 + (m2 - 2 ^ 52)

/-- Is the byte an ASCII decimal digit? -/
def isDigitB (b : Nat) : Bool := 0x30 ≤ b && b ≤ 0x39

/-- The `strtod` crate: parse a decimal number token (sign, integer part,
optional fraction, optional exponent) and convert it to the nearest binary64,
ties to even.  Returns `none` on a malformed token. -/
def strtodModel (l : List Nat) : Option Nat :=
  let signSplit : Bool × List Nat :=
    match l with
    | b :: t => if b = 0x2D then (true, t) else (false, b :: t)
    | [] => (false, [])
  let neg := signSplit.1
  let l1 := signSplit.2
  let intSplit := l1.span isDigitB
  let ds := intSplit.1
  let l2 := intSplit.2
  if ds.isEmpty then none
  else
    let fracSplit : Option (List Nat × List Nat) :=
      match l2 with
      | b :: t =>
        if b = 0x2E then
          let s := t.span isDigitB
          if s.1.isEmpty then none else some s
        else some ([], b :: t)
      | [] => some ([], [])
    match fracSplit with
    | none => none
    | some (fs, l3) =>
      match l3 with
      | [] => some (roundDecToF64 neg (decimalVal (ds ++ fs)) (-(fs.length : Int)))
      | b :: t =>
        if b = 0x45 ∨ b = 0x65 then
          let expSignSplit : Bool × List Nat :=
            match t with
            | b2 :: t2 =>
              if b2 = 0x2B then (false, t2)
              else if b2 = 0x2D then (true, t2)
              else (false, b2 :: t2)
            | [] => (false, [])
          let esign := expSignSplit.1
          let t1 := expSignSplit.2
          let expSplit := t1.span isDigitB
          let es := expSplit.1
          let t2 := expSplit.2
          if es.isEmpty || !t2.isEmpty then none
          else
            let expv : Int :=
              if esign then -(decimalVal es : Int) else (decimalVal es : Int)
            some (roundDecToF64 neg (decimalVal (ds ++ fs)) (expv - (fs.length : Int)))
        else none

/-! ## The data model (`src/value.rs`, `src/json/value.rs`)

`Value` stores objects as association lists in iteration order (Rust's
`HashMap` iterates in some order; equality of decode results is up to that
order, and every theorem below quantifies over it).  `ValueOrdered` stores
objects as the two buckets of a `RidiculousStringMap`. -/

/-- A legacy ssb value.  Floats carry their binary64 bit pattern. -/
inductive Value where
  | null : Value
  | bool (b : Bool) : Value
  | float (bits : Nat) : Value
  | str (s : List Char) : Value
  | arr (vs : List Value) : Value
  | obj (entries : List (List Char × Value)) : Value

instance : Inhabited Value := ⟨.null⟩

/-- A legacy ssb value whose objects preserve the `RidiculousStringMap`
bucket structure. -/
inductive ValueOrdered where
  | null : ValueOrdered
  | bool (b : Bool) : ValueOrdered
  | float (bits : Nat) : ValueOrdered
  | str (s : List Char) : ValueOrdered
  | arr (vs : List ValueOrdered) : ValueOrdered
  | obj (naturals : List (List Char × ValueOrdered))
        (others : List (List Char × ValueOrdered)) : ValueOrdered

instance : Inhabited ValueOrdered := ⟨.null⟩

/-! ## The json decoder (`src/json/de.rs`) -/

/-- `DecodeJsonError` from `src/json/de.rs`. -/
inductive DecodeJsonError where
  | UnexpectedEndOfInput
  | Syntax
  | InvalidNumber
  | InvalidStringContent
  | DuplicateKey
  | TrailingCharacters
  | ExpectedBool
  | ExpectedNumber
  | ExpectedString
  | ExpectedNull
  | ExpectedArray
  | ExpectedObject
  | Other (msg : String)
  deriving Repr, DecidableEq

/-- `is_ws`: the four whitespace bytes. -/
def is_ws (b : Nat) : Bool := b == 0x09 || b == 0x0A || b == 0x0D || b == 0x20

/-- `u16::from_str_radix(s, 16)` on a short byte slice: an optional sign
followed by hex digits (a minus sign only for value zero). -/
def hexVal (b : Nat) : Option Nat :=
  if 0x30 ≤ b ∧ b ≤ 0x39 then some (b - 0x30)
  else if 0x41 ≤ b ∧ b ≤ 0x46 then some (b - 0x41 + 10)
  else if 0x61 ≤ b ∧ b ≤ 0x66 then some (b - 0x61 + 10)
  else none

/-- Accumulate hex digits (none on a non-digit). -/
def hexValList (bs : List Nat) : Option Nat :=
  bs.foldl
    (fun acc b =>
      match acc, hexVal b with
      | some a, some d => some (a * 16 + d)
      | _, _ => none)
    (some 0)

/-- `u16::from_str_radix(_, 16)` (no overflow possible on four bytes). -/
def fromStrRadix16 (bs : List Nat) : Option Nat :=
  match bs with
  | [] => none
  | b :: t =>
    if b = 0x2B then (if t.isEmpty then none else hexValList t)
    else if b = 0x2D then
      match (if t.isEmpty then none else hexValList t) with
      | some 0 => some 0
      | _ => none
    else hexValList (b :: t)

/-- `U16UtfExt::is_utf16_leading_surrogate`. -/
def isLeadSurrogate (cp : Nat) : Bool := 0xD800 ≤ cp && cp ≤ 0xDBFF

/-- Is the code unit a trailing surrogate? -/
def isTrailSurrogate (cp : Nat) : Bool := 0xDC00 ≤ cp && cp ≤ 0xDFFF

/-- `parse_string`'s scan loop after the opening quote: decode escape
sequences, reject unescaped control bytes, validate UTF-8 byte groups. -/
def parseStringBody :
    Nat → List Char → List Nat → Except DecodeJsonError (List Char × List Nat)
  | 0, _, _ => throw .UnexpectedEndOfInput
  | fuel + 1, acc, input =>
    match input with
    | [] => throw .UnexpectedEndOfInput
    | b :: t =>
      if b = 0x22 then pure (acc, t)
      else if b = 0x5C then
        match t with
        | [] => throw .UnexpectedEndOfInput
        | e :: t2 =>
          if e = 0x22 then parseStringBody fuel (acc ++ ['\x22']) t2
          else if e = 0x5C then parseStringBody fuel (acc ++ ['\x5C']) t2
          else if e = 0x2F then parseStringBody fuel (acc ++ ['\x2F']) t2
          else if e = 0x62 then parseStringBody fuel (acc ++ ['\x08']) t2
          else if e = 0x66 then parseStringBody fuel (acc ++ ['\x0C']) t2
          else if e = 0x6E then parseStringBody fuel (acc ++ ['\x0A']) t2
          else if e = 0x72 then parseStringBody fuel (acc ++ ['\x0D']) t2
          else if e = 0x74 then parseStringBody fuel (acc ++ ['\x09']) t2
          else if e = 0x75 then
            if t2.length < 4 then throw .InvalidStringContent
            else
              match fromStrRadix16 (t2.take 4) with
              | none => throw .InvalidStringContent
              | some cp =>
                let t3 := t2.drop 4
                if isLeadSurrogate cp then
                  match t3 with
                  | [] => throw .UnexpectedEndOfInput
                  | c1 :: t4 =>
                    if c1 = 0x5C then
                      match t4 with
                      | [] => throw .UnexpectedEndOfInput
                      | c2 :: t5 =>
                        if c2 = 0x75 then
                          if t5.length < 4 then throw .InvalidStringContent
                          else
                            match fromStrRadix16 (t5.take 4) with
                            | none => throw .InvalidStringContent
                            | some cp2 =>
                              if isTrailSurrogate cp2 then
                                parseStringBody fuel
                                  (acc ++ [Char.ofNat
                                    (0x10000 + (cp - 0xD800) * 0x400 + (cp2 - 0xDC00))])
                                  (t5.drop 4)
                              else throw .InvalidStringContent
                        else throw .InvalidStringContent
                    else throw .InvalidStringContent
                else
                  if isTrailSurrogate cp then throw .InvalidStringContent
                  else parseStringBody fuel (acc ++ [Char.ofNat cp]) t3
          else throw .InvalidStringContent
      else if b ≤ 0x1F then throw .InvalidStringContent
      else
        match utf8DecodeOne (b :: t) with
        | none => throw .InvalidStringContent
        | some (c, len) => parseStringBody fuel (acc ++ [c]) ((b :: t).drop len)

/-- `parse_string`: opening quote, body, closing quote. -/
def parseString (input : List Nat) : Except DecodeJsonError (List Char × List Nat) :=
  match input with
  | [] => throw .UnexpectedEndOfInput
  | b :: t =>
    if b = 0x22 then parseStringBody (t.length + 1) [] t
    else throw .ExpectedString

/-- The number lexer of `parse_number`, sign step: an optional leading
minus (an empty input is Expected-Number). -/
def lexSign (input : List Nat) : Except DecodeJsonError (List Nat) :=
  match input with
  | [] => throw .ExpectedNumber
  | b :: t => if b = 0x2D then pure t else pure (b :: t)

/-- Integer part: `0`, or a nonzero digit followed by digits. -/
def lexInt (l1 : List Nat) : Except DecodeJsonError (List Nat) :=
  match l1 with
  | [] => throw .UnexpectedEndOfInput
  | d :: t2 =>
    if d = 0x30 then pure t2
    else if 0x31 ≤ d ∧ d ≤ 0x39 then pure (t2.dropWhile isDigitB)
    else throw .ExpectedNumber

/-- Optional fraction: `.` then at least one digit. -/
def lexFrac (l2 : List Nat) : Except DecodeJsonError (List Nat) :=
  match l2 with
  | [] => pure []
  | b :: t3 =>
    if b = 0x2E then
      match t3 with
      | [] => throw .UnexpectedEndOfInput
      | d :: t4 =>
        if isDigitB d then pure (t4.dropWhile isDigitB) else throw .Syntax
    else pure (b :: t3)

/-- Optional exponent: `e`/`E`, optional sign, at least one digit. -/
def lexExp (l3 : List Nat) : Except DecodeJsonError (List Nat) :=
  match l3 with
  | [] => pure []
  | b :: t4 =>
    if b = 0x45 ∨ b = 0x65 then do
      let l4 ←
        match t4 with
        | [] => throw DecodeJsonError.UnexpectedEndOfInput
        | s :: t5 =>
          if s = 0x2B ∨ s = 0x2D then pure t5 else pure (s :: t5)
      match l4 with
      | [] => throw DecodeJsonError.UnexpectedEndOfInput
      | d :: t6 =>
        if isDigitB d then pure (t6.dropWhile isDigitB) else throw .Syntax
    else pure (b :: t4)

/-- The number lexer of `parse_number`: consume one number token, returning
the remaining input. -/
def lexNumber (input : List Nat) : Except DecodeJsonError (List Nat) := do
  let l1 ← lexSign input
  let l2 ← lexInt l1
  let l3 ← lexFrac l2
  lexExp l3

/-- `parse_number`: lex the token, convert with `strtod`, reject values that
are not Float-Safe with `Invalid-Number`. -/
def parseNumber (input : List Nat) : Except DecodeJsonError (Nat × List Nat) := do
  let rest ← lexNumber input
  let tok := input.take (input.length - rest.length)
  match strtodModel tok with
  | some parsed =>
    match LegacyF64.from_f64 parsed with
    | some f => pure (f, rest)
    | none => throw .InvalidNumber
  | none => throw .InvalidNumber


/-! `deserialize_any` and the collection accessors, building a `Value`
(`ValueVisitor` of `src/json/value.rs`): fuel-indexed recursive-descent
parser.  Fuel only bounds the recursion; `from_slice` supplies more fuel than
any input can consume. -/
mutual

def parseValueJ : Nat → List Nat → Except DecodeJsonError (Value × List Nat)
  | 0, _ => throw .Syntax
  | fuel + 1, input =>
    match input.dropWhile is_ws with
    | [] => throw .UnexpectedEndOfInput
    | b :: t =>
      if b = 0x6E then
        if t.take 3 = [0x75, 0x6C, 0x6C] then pure (.null, t.drop 3) else throw .Syntax
      else if b = 0x66 then
        if t.take 4 = [0x61, 0x6C, 0x73, 0x65] then pure (.bool false, t.drop 4)
        else throw .Syntax
      else if b = 0x74 then
        if t.take 3 = [0x72, 0x75, 0x65] then pure (.bool true, t.drop 3) else throw .Syntax
      else if b = 0x22 then do
        let (s, rest) ← parseString (b :: t)
        pure (.str s, rest)
      else if b = 0x5B then do
        let (vs, rest) ← parseArrayElems fuel true [] t
        pure (.arr vs, rest)
      else if b = 0x7B then do
        let (es, rest) ← parseObjEntries fuel true [] t
        pure (.obj es, rest)
      else if b = 0x2D ∨ (0x30 ≤ b ∧ b ≤ 0x39) then do
        let (f, rest) ← parseNumber (b :: t)
        pure (.float f, rest)
      else throw .Syntax

def parseArrayElems :
    Nat → Bool → List Value → List Nat → Except DecodeJsonError (List Value × List Nat)
  | 0, _, _, _ => throw .Syntax
  | fuel + 1, first, acc, input =>
    match input.dropWhile is_ws with
    | [] => throw .UnexpectedEndOfInput
    | b :: t =>
      if b = 0x5D then pure (acc, t)
      else if first then do
        let (v, rest) ← parseValueJ fuel (b :: t)
        parseArrayElems fuel false (acc ++ [v]) rest
      else if b = 0x2C then do
        let (v, rest) ← parseValueJ fuel t
        parseArrayElems fuel false (acc ++ [v]) rest
      else throw .Syntax

def parseObjEntries :
    Nat → Bool → List (List Char × Value) → List Nat →
      Except DecodeJsonError (List (List Char × Value) × List Nat)
  | 0, _, _, _ => throw .Syntax
  | fuel + 1, first, acc, input =>
    match input.dropWhile is_ws with
    | [] => throw .UnexpectedEndOfInput
    | b :: t =>
      if b = 0x7D then pure (acc, t)
      else do
        let rest0 ←
          if first then pure (b :: t)
          else if b = 0x2C then pure t
          else throw .Syntax
        let (key, rest1) ← parseString (rest0.dropWhile is_ws)
        if acc.any (fun p => p.1 = key) then throw .DuplicateKey
        else
          match rest1.dropWhile is_ws with
          | [] => throw .UnexpectedEndOfInput
          | b2 :: t2 =>
            if b2 = 0x3A then do
              let (v, rest2) ← parseValueJ fuel t2
              parseObjEntries fuel false (acc ++ [(key, v)]) rest2
            else throw .Syntax

end

/-- `from_slice::<Value>`: parse one value, then require only trailing
whitespace. -/
def jsonFromSliceValue (input : List Nat) : Except DecodeJsonError Value :=
  match parseValueJ (input.length + 1) input with
  | .error e => .error e
  | .ok (v, rest) =>
    match rest.dropWhile is_ws with
    | [] => .ok v
    | _ :: _ => .error .TrailingCharacters

/-- `ObjectAccessState` for the ordered-object buckets (`src/json/value.rs`):
the key is a duplicate if it is in either bucket. -/
def hasKeyOrdered (naturals others : List (List Char × ValueOrdered))
    (key : List Char) : Bool :=
  others.any (fun p => p.1 = key) || naturals.any (fun p => p.1 = key)

/-- `BTreeMap<String, V>::insert` with the plain `String` order (byte-wise
lexicographic on the UTF-8 bytes), modelled as an association list sorted by
that order: an existing `Ordering`-equal key keeps its key and gets the new
value. -/
def lexSortedInsert {V : Type} (k : List Char) (v : V) :
    List (List Char × V) → List (List Char × V)
  | [] => [(k, v)]
  | (k2, v2) :: t =>
    match bytesCmp (strBytes k) (strBytes k2) with
    | .lt => (k, v) :: (k2, v2) :: t
    | .eq => (k2, v) :: t
    | .gt => (k2, v2) :: lexSortedInsert k v t

/-- One accumulation step of `ValueOrderedVisitor::visit_object`
(`src/json/value.rs`): the key `"0"`, and any other natural-like key, is
inserted into `naturals` — a `BTreeMap` keyed by plain `String`, so that
bucket stays sorted byte-lexicographically, not in the Grapho-Lex order of
`RidiculousStringMap` — and every remaining key goes into the
insertion-ordered `others` map. -/
def orderedInsert (naturals others : List (List Char × ValueOrdered))
    (k : List Char) (v : ValueOrdered) :
    List (List Char × ValueOrdered) × List (List Char × ValueOrdered) :=
  if k = ['0'] then (lexSortedInsert k v naturals, others)
  else if is_nat_str k then (lexSortedInsert k v naturals, others)
  else (naturals, (indexInsert k v others).1)

/-! The `ValueOrdered` deserialization visitor of `src/json/value.rs`
(`ValueOrderedVisitor`): objects accumulate into the two buckets via
`orderedInsert`, with `next_entry_seed` answering `has_key` from both buckets
(`hasKeyOrdered`) so that a repeated key fails `DuplicateKey` before its
value is parsed.  The byte-level parsing is that of `src/json/de.rs`, shared
with `parseValueJ`. -/
mutual

def parseValueO : Nat → List Nat → Except DecodeJsonError (ValueOrdered × List Nat)
  | 0, _ => throw .Syntax
  | fuel + 1, input =>
    match input.dropWhile is_ws with
    | [] => throw .UnexpectedEndOfInput
    | b :: t =>
      if b = 0x6E then
        if t.take 3 = [0x75, 0x6C, 0x6C] then pure (.null, t.drop 3) else throw .Syntax
      else if b = 0x66 then
        if t.take 4 = [0x61, 0x6C, 0x73, 0x65] then pure (.bool false, t.drop 4)
        else throw .Syntax
      else if b = 0x74 then
        if t.take 3 = [0x72, 0x75, 0x65] then pure (.bool true, t.drop 3) else throw .Syntax
      else if b = 0x22 then do
        let (s, rest) ← parseString (b :: t)
        pure (.str s, rest)
      else if b = 0x5B then do
        let (vs, rest) ← parseArrayElemsO fuel true [] t
        pure (.arr vs, rest)
      else if b = 0x7B then do
        let (m, rest) ← parseObjEntriesO fuel true [] [] t
        pure (.obj m.1 m.2, rest)
      else if b = 0x2D ∨ (0x30 ≤ b ∧ b ≤ 0x39) then do
        let (f, rest) ← parseNumber (b :: t)
        pure (.float f, rest)
      else throw .Syntax

def parseArrayElemsO :
    Nat → Bool → List ValueOrdered → List Nat →
      Except DecodeJsonError (List ValueOrdered × List Nat)
  | 0, _, _, _ => throw .Syntax
  | fuel + 1, first, acc, input =>
    match input.dropWhile is_ws with
    | [] => throw .UnexpectedEndOfInput
    | b :: t =>
      if b = 0x5D then pure (acc, t)
      else if first then do
        let (v, rest) ← parseValueO fuel (b :: t)
        parseArrayElemsO fuel false (acc ++ [v]) rest
      else if b = 0x2C then do
        let (v, rest) ← parseValueO fuel t
        parseArrayElemsO fuel false (acc ++ [v]) rest
      else throw .Syntax

def parseObjEntriesO :
    Nat → Bool → List (List Char × ValueOrdered) → List (List Char × ValueOrdered) →
      List Nat →
      Except DecodeJsonError
        ((List (List Char × ValueOrdered) × List (List Char × ValueOrdered)) × List Nat)
  | 0, _, _, _, _ => throw .Syntax
  | fuel + 1, first, na, ot, input =>
    match input.dropWhile is_ws with
    | [] => throw .UnexpectedEndOfInput
    | b :: t =>
      if b = 0x7D then pure ((na, ot), t)
      else do
        let rest0 ←
          if first then pure (b :: t)
          else if b = 0x2C then pure t
          else throw .Syntax
        let (key, rest1) ← parseString (rest0.dropWhile is_ws)
        if hasKeyOrdered na ot key then throw .DuplicateKey
        else
          match rest1.dropWhile is_ws with
          | [] => throw .UnexpectedEndOfInput
          | b2 :: t2 =>
            if b2 = 0x3A then do
              let (v, rest2) ← parseValueO fuel t2
              let m2 := orderedInsert na ot key v
              parseObjEntriesO fuel false m2.1 m2.2 rest2
            else throw .Syntax

end

/-- `from_slice::<ValueOrdered>`. -/
def jsonFromSliceOrdered (input : List Nat) : Except DecodeJsonError ValueOrdered :=
  match parseValueO (input.length + 1) input with
  | .error e => .error e
  | .ok (v, rest) =>
    match rest.dropWhile is_ws with
    | [] => .ok v
    | _ :: _ => .error .TrailingCharacters


/-! ## The json encoder (`src/json/ser.rs`)

The float formatter (the external `ryu_ecmascript` crate) is a parameter
`nf : Nat → List Nat` mapping a bit pattern to its decimal token; theorems
that depend on its behaviour take that behaviour as hypotheses. -/

/-- Lowercase hex digit. -/
def hexDigitLower (n : Nat) : Nat := if n < 10 then 0x30 + n else 0x57 + n

/-- The escape table of `serialize_str`: `\b \t \n \f \r`, lowercase
`\u00XX` for the other control bytes, `\"` and `\\`; every other byte is
copied. -/
def escapeByte (b : Nat) : List Nat :=
  if b = 0x08 then [0x5C, 0x62]
  else if b = 0x09 then [0x5C, 0x74]
  else if b = 0x0A then [0x5C, 0x6E]
  else if b = 0x0C then [0x5C, 0x66]
  else if b = 0x0D then [0x5C, 0x72]
  else if b ≤ 0x1F then [0x5C, 0x75, 0x30, 0x30, hexDigitLower (b / 16), hexDigitLower (b % 16)]
  else if b = 0x22 then [0x5C, 0x22]
  else if b = 0x5C then [0x5C, 0x5C]
  else [b]

/-- `serialize_str`: quote, escaped bytes, quote. -/
def serializeStr (s : List Char) : List Nat :=
  [0x22] ++ (strBytes s).flatMap escapeByte ++ [0x22]

/-- `write_indent`: two spaces per indent level. -/
def indentBytes (n : Nat) : List Nat := List.replicate (2 * n) 0x20

mutual

def jsonSerValue (nf : Nat → List Nat) (compact : Bool) (indent : Nat) :
    Value → List Nat
  | .null => [0x6E, 0x75, 0x6C, 0x6C]
  | .bool true => [0x74, 0x72, 0x75, 0x65]
  | .bool false => [0x66, 0x61, 0x6C, 0x73, 0x65]
  | .float bits => nf bits
  | .str s => serializeStr s
  | .arr vs =>
    [0x5B] ++ jsonSerElems nf compact (indent + 1) true vs
      ++ (if compact then [] else if vs.isEmpty then [] else 0x0A :: indentBytes indent)
      ++ [0x5D]
  | .obj es =>
    [0x7B] ++ jsonSerEntries nf compact (indent + 1) true es
      ++ (if compact then [] else if es.isEmpty then [] else 0x0A :: indentBytes indent)
      ++ [0x7D]

def jsonSerElems (nf : Nat → List Nat) (compact : Bool) (indent : Nat)
    (first : Bool) : List Value → List Nat
  | [] => []
  | v :: t =>
    (if first then [] else [0x2C])
      ++ (if compact then [] else 0x0A :: indentBytes indent)
      ++ jsonSerValue nf compact indent v
      ++ jsonSerElems nf compact indent false t

def jsonSerEntries (nf : Nat → List Nat) (compact : Bool) (indent : Nat)
    (first : Bool) : List (List Char × Value) → List Nat
  | [] => []
  | (k, v) :: t =>
    (if first then [] else [0x2C])
      ++ (if compact then [] else 0x0A :: indentBytes indent)
      ++ serializeStr k
      ++ (if compact then [0x3A] else [0x3A, 0x20])
      ++ jsonSerValue nf compact indent v
      ++ jsonSerEntries nf compact indent false t

end

/-- `json::to_vec` for `Value`. -/
def jsonToVec (nf : Nat → List Nat) (v : Value) (compact : Bool) : List Nat :=
  jsonSerValue nf compact 0 v

mutual

def jsonSerValueO (nf : Nat → List Nat) (compact : Bool) (indent : Nat) :
    ValueOrdered → List Nat
  | .null => [0x6E, 0x75, 0x6C, 0x6C]
  | .bool true => [0x74, 0x72, 0x75, 0x65]
  | .bool false => [0x66, 0x61, 0x6C, 0x73, 0x65]
  | .float bits => nf bits
  | .str s => serializeStr s
  | .arr vs =>
    [0x5B] ++ jsonSerElemsO nf compact (indent + 1) true vs
      ++ (if compact then [] else if vs.isEmpty then [] else 0x0A :: indentBytes indent)
      ++ [0x5D]
  | .obj na ot =>
    [0x7B] ++ jsonSerEntriesO nf compact (indent + 1) true na ot
      ++ (if compact then []
          else if na.isEmpty && ot.isEmpty then [] else 0x0A :: indentBytes indent)
      ++ [0x7D]
termination_by v => sizeOf v

def jsonSerElemsO (nf : Nat → List Nat) (compact : Bool) (indent : Nat)
    (first : Bool) : List ValueOrdered → List Nat
  | [] => []
  | v :: t =>
    (if first then [] else [0x2C])
      ++ (if compact then [] else 0x0A :: indentBytes indent)
      ++ jsonSerValueO nf compact indent v
      ++ jsonSerElemsO nf compact indent false t
termination_by l => sizeOf l

def jsonSerEntriesO (nf : Nat → List Nat) (compact : Bool) (indent : Nat)
    (first : Bool) :
    List (List Char × ValueOrdered) → List (List Char × ValueOrdered) → List Nat
  | [], [] => []
  | [], (k, v) :: ot =>
    (if first then [] else [0x2C])
      ++ (if compact then [] else 0x0A :: indentBytes indent)
      ++ serializeStr k
      ++ (if compact then [0x3A] else [0x3A, 0x20])
      ++ jsonSerValueO nf compact indent v
      ++ jsonSerEntriesO nf compact indent false [] ot
  | (k, v) :: na, ot =>
    (if first then [] else [0x2C])
      ++ (if compact then [] else 0x0A :: indentBytes indent)
      ++ serializeStr k
      ++ (if compact then [0x3A] else [0x3A, 0x20])
      ++ jsonSerValueO nf compact indent v
      ++ jsonSerEntriesO nf compact indent false na ot
termination_by na ot => sizeOf na + sizeOf ot

end

/-- `json::to_vec` for `ValueOrdered` (object entries iterate the sorted
bucket first, then the insertion-ordered bucket, as in `Serialize for
ValueOrdered` in `src/value.rs`). -/
def jsonToVecO (nf : Nat → List Nat) (v : ValueOrdered) (compact : Bool) : List Nat :=
  jsonSerValueO nf compact 0 v


/-! ## C2: the S1 signing-form scenario -/

/-- The bytes of the S1 input `{"b":1,"a":2,"10":3,"2":4,"0":5}`. -/
def s1Input : List Nat := [0x7B, 0x22, 0x62, 0x22, 0x3A, 0x31, 0x2C, 0x22, 0x61, 0x22, 0x3A, 0x32, 0x2C, 0x22, 0x31, 0x30, 0x22, 0x3A, 0x33, 0x2C, 0x22, 0x32, 0x22, 0x3A, 0x34, 0x2C, 0x22, 0x30, 0x22, 0x3A, 0x35, 0x7D]

/-- The bytes of the six-line S1 signing-mode output the claim requires
(natural-like keys in Grapho-Lex, i.e. numeric, order: `"0"`, `"2"`,
`"10"`). -/
def s1Output : List Nat := [0x7B, 0x0A, 0x20, 0x20, 0x22, 0x30, 0x22, 0x3A, 0x20, 0x35, 0x2C, 0x0A, 0x20, 0x20, 0x22, 0x32, 0x22, 0x3A, 0x20, 0x34, 0x2C, 0x0A, 0x20, 0x20, 0x22, 0x31, 0x30, 0x22, 0x3A, 0x20, 0x33, 0x2C, 0x0A, 0x20, 0x20, 0x22, 0x62, 0x22, 0x3A, 0x20, 0x31, 0x2C, 0x0A, 0x20, 0x20, 0x22, 0x61, 0x22, 0x3A, 0x20, 0x32, 0x0A, 0x7D]

/-- The six-line signing-mode text the in-tree decoder-serializer pair
actually produces: the natural-like keys iterate in plain `String`
(byte-lexicographic) order `"0"`, `"10"`, `"2"`. -/
def s1OutputLex : List Nat := [0x7B, 0x0A, 0x20, 0x20, 0x22, 0x30, 0x22, 0x3A, 0x20, 0x35, 0x2C, 0x0A, 0x20, 0x20, 0x22, 0x31, 0x30, 0x22, 0x3A, 0x20, 0x33, 0x2C, 0x0A, 0x20, 0x20, 0x22, 0x32, 0x22, 0x3A, 0x20, 0x34, 0x2C, 0x0A, 0x20, 0x20, 0x22, 0x62, 0x22, 0x3A, 0x20, 0x31, 0x2C, 0x0A, 0x20, 0x20, 0x22, 0x61, 0x22, 0x3A, 0x20, 0x32, 0x0A, 0x7D]

/-- C2: the S1 scenario fails on the in-tree program.  Decoding the S1 input
as `ValueOrdered` and re-encoding it in signing mode produces the six-line
text with the natural-like keys in byte-lexicographic order — `"0"`, `"10"`,
`"2"` — because `ValueOrderedVisitor::visit_object` (`src/json/value.rs`)
keeps them in a `BTreeMap` keyed by plain `String` instead of the
length-first `RidiculousStringMap` the Ordered-Object law (and the exported
`ValueOrdered` of `src/value.rs`) uses; the claimed bytes `s1Output` with
order `"0"`, `"2"`, `"10"` are therefore not produced.  The float formatter
`nf` (the `ryu_ecmascript` dependency) is constrained only at the five float
values that occur, where ECMAScript number-to-string yields `"5"`, `"3"`,
`"4"`, `"1"`, `"2"`. -/
theorem claim_C2 (nf : Nat → List Nat)
    (h1 : nf 0x3FF0000000000000 = [0x31]) (h2 : nf 0x4000000000000000 = [0x32])
    (h3 : nf 0x4008000000000000 = [0x33]) (h4 : nf 0x4010000000000000 = [0x34])
    (h5 : nf 0x4014000000000000 = [0x35]) :
    (jsonFromSliceOrdered s1Input).map (fun v => jsonToVecO nf v false) = .ok s1OutputLex
    ∧ s1OutputLex ≠ s1Output := by
  constructor
  · have hdec : jsonFromSliceOrdered s1Input
        = .ok (.obj [(['0'], .float 0x4014000000000000),
                     (['1','0'], .float 0x4008000000000000),
                     (['2'], .float 0x4010000000000000)]
                    [(['b'], .float 0x3FF0000000000000),
                     (['a'], .float 0x4000000000000000)]) := by rfl
    rw [hdec]
    simp only [Except.map]
    simp [jsonToVecO, jsonSerValueO, jsonSerEntriesO, h1, h2, h3, h4, h5, serializeStr,
      strBytes, utf8EncodeChar, escapeByte, indentBytes, s1OutputLex]
  · decide

/-- A float formatter fragment sufficient for the S1 scenario: the decimal
tokens of the small integral floats involved. -/
def s1NumFormat (bits : Nat) : List Nat :=
  if bits = 0x3FF0000000000000 then [0x31]
  else if bits = 0x4000000000000000 then [0x32]
  else if bits = 0x4008000000000000 then [0x33]
  else if bits = 0x4010000000000000 then [0x34]
  else if bits = 0x4014000000000000 then [0x35]
  else if bits = 0x4024000000000000 then [0x31, 0x30]
  else [0x30]

/-- Witness for C2 with a concrete formatter. -/
theorem claim_C2_witness :
    (jsonFromSliceOrdered s1Input).map (fun v => jsonToVecO s1NumFormat v false)
      = .ok s1OutputLex
    ∧ s1OutputLex ≠ s1Output :=
  claim_C2 s1NumFormat rfl rfl rfl rfl rfl


/-! ## The textual number grammar and C8 -/

/-- Nonzero ASCII digit. -/
def isNzDigit (b : Nat) : Bool := 0x31 ≤ b && b ≤ 0x39

/-- The textual number grammar of the decoder (spec §4.5): optional sign,
integer part `0` or nonzero digit then digits, optional fraction `.` then
digits, optional exponent `e`/`E`, optional sign, digits. -/
def numTokenGrammar (t : List Nat) : Prop :=
  ∃ sgn ip fr ex : List Nat,
    t = sgn ++ ip ++ fr ++ ex
    ∧ (sgn = [] ∨ sgn = [0x2D])
    ∧ (ip = [0x30] ∨ ∃ d ds, ip = d :: ds ∧ isNzDigit d = true
        ∧ (∀ x ∈ ds, isDigitB x = true))
    ∧ (fr = [] ∨ ∃ fd fds, fr = 0x2E :: fd :: fds ∧ isDigitB fd = true
        ∧ (∀ x ∈ fds, isDigitB x = true))
    ∧ (ex = [] ∨ ∃ (e0 : Nat) (es : List Nat) (ed : Nat) (eds : List Nat),
        ex = e0 :: (es ++ ed :: eds) ∧ (e0 = 0x45 ∨ e0 = 0x65)
        ∧ (es = [] ∨ es = [0x2B] ∨ es = [0x2D])
        ∧ isDigitB ed = true ∧ (∀ x ∈ eds, isDigitB x = true))

/-- A continuation that cannot extend a number token. -/
def numContOk (rest : List Nat) : Prop :=
  match rest with
  | [] => True
  | b :: _ => isDigitB b = false ∧ b ≠ 0x2E ∧ b ≠ 0x45 ∧ b ≠ 0x65

/-- The continuation does not start with a digit. -/
def headNonDigit (X : List Nat) : Prop :=
  match X with
  | [] => True
  | b :: _ => isDigitB b = false

/-- The continuation does not start with a decimal point. -/
def noFracHead (X : List Nat) : Prop :=
  match X with
  | [] => True
  | b :: _ => b ≠ 0x2E

/-- The continuation does not start with an exponent marker. -/
def noExpHead (X : List Nat) : Prop :=
  match X with
  | [] => True
  | b :: _ => b ≠ 0x45 ∧ b ≠ 0x65

theorem dropWhile_digits_append (ds X : List Nat)
    (hds : ∀ x ∈ ds, isDigitB x = true) (hX : headNonDigit X) :
    List.dropWhile isDigitB (ds ++ X) = X := by
  induction ds with
  | nil =>
    cases X with
    | nil => simp
    | cons b t =>
      simp only [List.nil_append, List.dropWhile_cons]
      unfold headNonDigit at hX
      simp only at hX
      simp [hX]
  | cons d dt ih =>
    simp only [List.cons_append, List.dropWhile_cons, hds d (by simp)]
    simp only [if_true]
    exact ih (fun x hx => hds x (by simp [hx]))

theorem lexSign_none (b : Nat) (t : List Nat) (hb : b ≠ 0x2D) :
    lexSign (b :: t) = .ok (b :: t) := by
  simp [lexSign, hb]
  rfl

theorem lexSign_minus (t : List Nat) : lexSign (0x2D :: t) = .ok t := by
  simp [lexSign]
  rfl

theorem lexInt_zero (X : List Nat) : lexInt (0x30 :: X) = .ok X := by
  simp [lexInt]
  rfl

theorem lexInt_nz (d : Nat) (ds X : List Nat) (hd : isNzDigit d = true)
    (hds : ∀ x ∈ ds, isDigitB x = true) (hX : headNonDigit X) :
    lexInt (d :: (ds ++ X)) = .ok X := by
  unfold isNzDigit at hd
  simp only [Bool.and_eq_true, decide_eq_true_eq] at hd
  simp only [lexInt]
  rw [if_neg (by omega : ¬ d = 0x30), if_pos (by omega : 0x31 ≤ d ∧ d ≤ 0x39)]
  rw [dropWhile_digits_append ds X hds hX]
  rfl

theorem lexFrac_skip (X : List Nat) (h : noFracHead X) :
    lexFrac X = .ok X := by
  cases X with
  | nil => rfl
  | cons b t =>
    have h : b ≠ 0x2E := h
    simp only [lexFrac]
    rw [if_neg h]
    rfl

theorem lexFrac_yes (fd : Nat) (fds X : List Nat) (hfd : isDigitB fd = true)
    (hfds : ∀ x ∈ fds, isDigitB x = true) (hX : headNonDigit X) :
    lexFrac (0x2E :: fd :: (fds ++ X)) = .ok X := by
  simp only [lexFrac]
  simp only [if_true, hfd]
  rw [dropWhile_digits_append fds X hfds hX]
  rfl

theorem lexExp_skip (X : List Nat) (h : noExpHead X) :
    lexExp X = .ok X := by
  cases X with
  | nil => rfl
  | cons b t =>
    have h : b ≠ 0x45 ∧ b ≠ 0x65 := h
    simp only [lexExp]
    rw [if_neg (by tauto)]
    rfl

theorem lexExp_yes (e0 : Nat) (es : List Nat) (ed : Nat) (eds X : List Nat)
    (he0 : e0 = 0x45 ∨ e0 = 0x65) (hes : es = [] ∨ es = [0x2B] ∨ es = [0x2D])
    (hed : isDigitB ed = true) (heds : ∀ x ∈ eds, isDigitB x = true)
    (hX : headNonDigit X) :
    lexExp (e0 :: (es ++ ed :: (eds ++ X))) = .ok X := by
  have h1 : ¬ (ed = 0x2B ∨ ed = 0x2D) := by
    unfold isDigitB at hed
    simp only [Bool.and_eq_true, decide_eq_true_eq] at hed
    omega
  have hdrop := dropWhile_digits_append eds X heds hX
  rcases hes with hes | hes | hes <;> subst hes <;>
    simp only [lexExp, List.nil_append, List.cons_append, List.singleton_append] <;>
    rw [if_pos he0] <;>
    simp [h1, hed, hdrop] <;>
    rfl


/-- The number lexer consumes exactly one grammar-conforming token when the
continuation cannot extend it. -/
theorem lexNumber_grammar (t rest : List Nat) (h : numTokenGrammar t)
    (hr : numContOk rest) : lexNumber (t ++ rest) = .ok rest := by
  obtain ⟨sgn, ip, fr, ex, rfl, hsgn, hip, hfr, hex⟩ := h
  have hXfr : headNonDigit (fr ++ (ex ++ rest)) := by
    rcases hfr with hfr | ⟨fd, fds, hfr, _, _⟩
    · subst hfr
      simp only [List.nil_append]
      rcases hex with hex | ⟨e0, es, ed, eds, hex, he0, _, _, _⟩
      · subst hex
        simp only [List.nil_append]
        cases rest with
        | nil => trivial
        | cons b tl => exact hr.1
      · subst hex
        show isDigitB e0 = false
        rcases he0 with he0 | he0 <;> subst he0 <;> decide
    · subst hfr
      show isDigitB 0x2E = false
      decide
  have hXex : headNonDigit (ex ++ rest) := by
    rcases hex with hex | ⟨e0, es, ed, eds, hex, he0, _, _, _⟩
    · subst hex
      simp only [List.nil_append]
      cases rest with
      | nil => trivial
      | cons b tl => exact hr.1
    · subst hex
      show isDigitB e0 = false
      rcases he0 with he0 | he0 <;> subst he0 <;> decide
  have hFracCont : noFracHead (ex ++ rest) := by
    rcases hex with hex | ⟨e0, es, ed, eds, hex, he0, _, _, _⟩
    · subst hex
      simp only [List.nil_append]
      cases rest with
      | nil => trivial
      | cons b tl => exact hr.2.1
    · subst hex
      show e0 ≠ 0x2E
      rcases he0 with he0 | he0 <;> subst he0 <;> decide
  have hExpCont : noExpHead rest := by
    cases rest with
    | nil => trivial
    | cons b tl => exact ⟨hr.2.2.1, hr.2.2.2⟩
  have hRest : headNonDigit rest := by
    cases rest with
    | nil => trivial
    | cons b tl => exact hr.1
  -- the fraction and exponent stages
  have e3 : lexFrac (fr ++ (ex ++ rest)) = .ok (ex ++ rest) := by
    rcases hfr with hfr | ⟨fd, fds, hfr, hfd, hfds⟩
    · subst hfr
      simp only [List.nil_append]
      exact lexFrac_skip _ hFracCont
    · subst hfr
      have := lexFrac_yes fd fds (ex ++ rest) hfd hfds hXex
      simpa using this
  have e4 : lexExp (ex ++ rest) = .ok rest := by
    rcases hex with hex | ⟨e0, es, ed, eds, hex, he0, hes, hed, heds⟩
    · subst hex
      simp only [List.nil_append]
      exact lexExp_skip _ hExpCont
    · subst hex
      have := lexExp_yes e0 es ed eds rest he0 hes hed heds hRest
      simpa [List.append_assoc] using this
  -- sign and integer stages, then assemble
  rcases hsgn with hsgn | hsgn <;> subst hsgn
  · rcases hip with hip | ⟨d, ds, hip, hd, hds⟩ <;> subst hip
    · have heq : ([] ++ [0x30] ++ fr ++ ex) ++ rest = 0x30 :: (fr ++ (ex ++ rest)) := by
        simp
      rw [heq]
      show (do
        let l1 ← lexSign (0x30 :: (fr ++ (ex ++ rest)))
        let l2 ← lexInt l1
        let l3 ← lexFrac l2
        lexExp l3) = .ok rest
      rw [lexSign_none 0x30 _ (by decide)]
      show (do
        let l2 ← lexInt (0x30 :: (fr ++ (ex ++ rest)))
        let l3 ← lexFrac l2
        lexExp l3) = .ok rest
      rw [lexInt_zero]
      show (do
        let l3 ← lexFrac (fr ++ (ex ++ rest))
        lexExp l3) = .ok rest
      rw [e3]
      show lexExp (ex ++ rest) = .ok rest
      exact e4
    · have heq : ([] ++ (d :: ds) ++ fr ++ ex) ++ rest
          = d :: (ds ++ (fr ++ (ex ++ rest))) := by simp
      rw [heq]
      have hdne : d ≠ 0x2D := by
        unfold isNzDigit at hd
        simp only [Bool.and_eq_true, decide_eq_true_eq] at hd
        omega
      show (do
        let l1 ← lexSign (d :: (ds ++ (fr ++ (ex ++ rest))))
        let l2 ← lexInt l1
        let l3 ← lexFrac l2
        lexExp l3) = .ok rest
      rw [lexSign_none d _ hdne]
      show (do
        let l2 ← lexInt (d :: (ds ++ (fr ++ (ex ++ rest))))
        let l3 ← lexFrac l2
        lexExp l3) = .ok rest
      rw [lexInt_nz d ds _ hd hds hXfr]
      show (do
        let l3 ← lexFrac (fr ++ (ex ++ rest))
        lexExp l3) = .ok rest
      rw [e3]
      show lexExp (ex ++ rest) = .ok rest
      exact e4
  · rcases hip with hip | ⟨d, ds, hip, hd, hds⟩ <;> subst hip
    · have heq : ([0x2D] ++ [0x30] ++ fr ++ ex) ++ rest
          = 0x2D :: 0x30 :: (fr ++ (ex ++ rest)) := by simp
      rw [heq]
      show (do
        let l1 ← lexSign (0x2D :: 0x30 :: (fr ++ (ex ++ rest)))
        let l2 ← lexInt l1
        let l3 ← lexFrac l2
        lexExp l3) = .ok rest
      rw [lexSign_minus]
      show (do
        let l2 ← lexInt (0x30 :: (fr ++ (ex ++ rest)))
        let l3 ← lexFrac l2
        lexExp l3) = .ok rest
      rw [lexInt_zero]
      show (do
        let l3 ← lexFrac (fr ++ (ex ++ rest))
        lexExp l3) = .ok rest
      rw [e3]
      show lexExp (ex ++ rest) = .ok rest
      exact e4
    · have heq : ([0x2D] ++ (d :: ds) ++ fr ++ ex) ++ rest
          = 0x2D :: d :: (ds ++ (fr ++ (ex ++ rest))) := by simp
      rw [heq]
      show (do
        let l1 ← lexSign (0x2D :: d :: (ds ++ (fr ++ (ex ++ rest))))
        let l2 ← lexInt l1
        let l3 ← lexFrac l2
        lexExp l3) = .ok rest
      rw [lexSign_minus]
      show (do
        let l2 ← lexInt (d :: (ds ++ (fr ++ (ex ++ rest))))
        let l3 ← lexFrac l2
        lexExp l3) = .ok rest
      rw [lexInt_nz d ds _ hd hds hXfr]
      show (do
        let l3 ← lexFrac (fr ++ (ex ++ rest))
        lexExp l3) = .ok rest
      rw [e3]
      show lexExp (ex ++ rest) = .ok rest
      exact e4


/-- After lexing a token, `parse_number` hands exactly the token to `strtod`
and checks Float-Safety. -/
theorem parseNumber_token (t rest : List Nat) (h : numTokenGrammar t)
    (hr : numContOk rest) :
    parseNumber (t ++ rest)
      = (match strtodModel t with
         | some parsed =>
           match LegacyF64.from_f64 parsed with
           | some f => .ok (f, rest)
           | none => .error .InvalidNumber
         | none => .error .InvalidNumber) := by
  unfold parseNumber
  rw [lexNumber_grammar t rest h hr]
  have hlen : (t ++ rest).length - rest.length = t.length := by
    simp
  show (match strtodModel ((t ++ rest).take ((t ++ rest).length - rest.length)) with
         | some parsed =>
           match LegacyF64.from_f64 parsed with
           | some f => Except.ok (f, rest)
           | none => Except.error DecodeJsonError.InvalidNumber
         | none => Except.error DecodeJsonError.InvalidNumber)
      = _
  rw [hlen, List.take_left]

/-- A grammar-conforming token starts with a minus sign or a digit. -/
theorem numTokenGrammar_head (t : List Nat) (h : numTokenGrammar t) :
    ∃ b t2, t = b :: t2 ∧ (b = 0x2D ∨ (0x30 ≤ b ∧ b ≤ 0x39)) := by
  obtain ⟨sgn, ip, fr, ex, rfl, hsgn, hip, _, _⟩ := h
  rcases hsgn with hs | hs <;> subst hs
  · rcases hip with hi | ⟨d, ds, hi, hd, _⟩ <;> subst hi
    · exact ⟨0x30, fr ++ ex, by simp, Or.inr (by omega)⟩
    · refine ⟨d, ds ++ fr ++ ex, by simp, Or.inr ?_⟩
      unfold isNzDigit at hd
      simp only [Bool.and_eq_true, decide_eq_true_eq] at hd
      omega
  · exact ⟨0x2D, ip ++ fr ++ ex, by simp, Or.inl rfl⟩

/-- C8: every grammar-conforming textual number token whose correctly-rounded
value is not Float-Safe (negative zero, an infinity — NaN cannot arise from a
decimal) is rejected by the textual decoder with `Invalid-Number`; in
particular the input `-0` fails with `Invalid-Number`. -/
theorem claim_C8 :
    (∀ (t : List Nat) (bits : Nat), numTokenGrammar t → strtodModel t = some bits →
       is_f64_valid bits = false → jsonFromSliceValue t = .error .InvalidNumber)
    ∧ jsonFromSliceValue [0x2D, 0x30] = .error .InvalidNumber := by
  constructor
  · intro t bits hg hs hv
    obtain ⟨b, t2, rfl, hb⟩ := numTokenGrammar_head t hg
    have hnum : parseNumber (b :: t2) = .error .InvalidNumber := by
      have h1 := parseNumber_token (b :: t2) [] hg trivial
      rw [List.append_nil] at h1
      rw [h1, hs]
      have h2 : LegacyF64.from_f64 bits = none := by
        unfold LegacyF64.from_f64
        rw [show LegacyF64.is_valid bits = false from hv]
        simp
      simp [h2]
    have hws : is_ws b = false := by
      unfold is_ws
      rcases hb with hb | hb
      · subst hb
        decide
      · simp only [Bool.or_eq_false_iff, beq_eq_false_iff_ne, ne_eq]
        omega
    have hnotdispatch : ¬ b = 0x6E ∧ ¬ b = 0x66 ∧ ¬ b = 0x74 ∧ ¬ b = 0x22
        ∧ ¬ b = 0x5B ∧ ¬ b = 0x7B := by
      rcases hb with hb | hb <;> subst_vars
      · exact ⟨by decide, by decide, by decide, by decide, by decide, by decide⟩
      · refine ⟨by omega, by omega, by omega, by omega, by omega, by omega⟩
    obtain ⟨d1, d2, d3, d4, d5, d6⟩ := hnotdispatch
    unfold jsonFromSliceValue
    have hstep : parseValueJ ((b :: t2).length + 1) (b :: t2)
        = .error .InvalidNumber := by
      simp only [parseValueJ, List.dropWhile_cons, hws, Bool.false_eq_true, if_false]
      simp only [d1, d2, d3, d4, d5, d6, if_false, hb, if_pos, if_true]
      rw [hnum]
      rfl
    rw [hstep]
  · rfl

set_option maxRecDepth 10000 in
set_option exponentiation.threshold 2000 in
/-- Witness for C8: the token `1e400` overflows to `+∞`, which is rejected. -/
theorem claim_C8_witness :
    jsonFromSliceValue [0x31, 0x65, 0x34, 0x30, 0x30] = .error .InvalidNumber := by
  refine claim_C8.1 [0x31, 0x65, 0x34, 0x30, 0x30] posInfBits
    ⟨[], [0x31], [], [0x65, 0x34, 0x30, 0x30], by decide, Or.inl rfl,
      Or.inr ⟨0x31, [], rfl, by decide, by simp⟩, Or.inl rfl,
      Or.inr ⟨0x65, [], 0x34, [0x30, 0x30], by decide, Or.inr rfl, Or.inl rfl,
        by decide, by decide⟩⟩
    (by decide) (by decide)


/-! ## C9: the escape table of the textual string parser -/

/-- C9 counterexample: the claim says every character other than
`" \ b f n r t u` after a backslash is rejected, but the decoder also accepts
`\/` (`src/json/de.rs` line 311): decoding the string `"\/"` succeeds and
yields `"/"`. -/
theorem claim_C9_counterexample :
    jsonFromSliceValue [0x22, 0x5C, 0x2F, 0x22] = .ok (.str ['/']) := by rfl

/-- C9 (amended): inside a textual string the decoder accepts after a
backslash exactly the escapes `\" \\ \/ \b \f \n \r \t` and `\uXXXX` (four
hex bytes, high surrogates requiring an immediately following `\u` low
surrogate); every other byte after a backslash fails with
`Invalid-String-Content`.  Conjuncts: the rejection of every byte outside
the nine-byte table; the nine single-character escapes decoding to their
characters; a `\uXXXX` escape decoding to its scalar value; an unpaired
high surrogate rejected; a valid surrogate pair accepted. -/
theorem claim_C9 :
    (∀ (e : Nat) (rest : List Nat),
       e ∉ ([0x22, 0x5C, 0x2F, 0x62, 0x66, 0x6E, 0x72, 0x74, 0x75] : List Nat) →
       parseString (0x22 :: 0x5C :: e :: rest) = .error .InvalidStringContent)
    ∧ (∀ rest, parseString (0x22 :: 0x5C :: 0x22 :: 0x22 :: rest) = .ok (['\x22'], rest))
    ∧ (∀ rest, parseString (0x22 :: 0x5C :: 0x5C :: 0x22 :: rest) = .ok (['\x5C'], rest))
    ∧ (∀ rest, parseString (0x22 :: 0x5C :: 0x2F :: 0x22 :: rest) = .ok (['/'], rest))
    ∧ (∀ rest, parseString (0x22 :: 0x5C :: 0x62 :: 0x22 :: rest) = .ok (['\x08'], rest))
    ∧ (∀ rest, parseString (0x22 :: 0x5C :: 0x66 :: 0x22 :: rest) = .ok (['\x0C'], rest))
    ∧ (∀ rest, parseString (0x22 :: 0x5C :: 0x6E :: 0x22 :: rest) = .ok (['\x0A'], rest))
    ∧ (∀ rest, parseString (0x22 :: 0x5C :: 0x72 :: 0x22 :: rest) = .ok (['\x0D'], rest))
    ∧ (∀ rest, parseString (0x22 :: 0x5C :: 0x74 :: 0x22 :: rest) = .ok (['\x09'], rest))
    ∧ (∀ rest, parseString ([0x22, 0x5C, 0x75, 0x30, 0x30, 0x34, 0x31, 0x22] ++ rest)
        = .ok (['A'], rest))
    ∧ (∀ rest, parseString ([0x22, 0x5C, 0x75, 0x44, 0x38, 0x30, 0x30, 0x78] ++ rest)
        = .error .InvalidStringContent)
    ∧ (∀ rest, parseString ([0x22, 0x5C, 0x75, 0x44, 0x38, 0x33, 0x44,
                             0x5C, 0x75, 0x44, 0x45, 0x30, 0x30, 0x22] ++ rest)
        = .ok ([Char.ofNat 0x1F600], rest)) := by
  refine ⟨?_, ?_, ?_, ?_, ?_, ?_, ?_, ?_, ?_, ?_, ?_, ?_⟩
  · intro e rest h
    simp only [List.mem_cons, not_or] at h
    obtain ⟨h1, h2, h3, h4, h5, h6, h7, h8, h9, _⟩ := h
    simp [parseString, parseStringBody, h1, h2, h3, h4, h5, h6, h7, h8, h9]
    rfl
  all_goals intro rest
  · simp [parseString, parseStringBody]
    rfl
  · simp [parseString, parseStringBody]
    rfl
  · simp [parseString, parseStringBody]
    rfl
  · simp [parseString, parseStringBody]
    rfl
  · simp [parseString, parseStringBody]
    rfl
  · simp [parseString, parseStringBody]
    rfl
  · simp [parseString, parseStringBody]
    rfl
  · simp [parseString, parseStringBody]
    rfl
  · simp [parseString, parseStringBody, fromStrRadix16, hexValList, hexVal,
      isLeadSurrogate, isTrailSurrogate]
    split
    · omega
    · rfl
  · simp [parseString, parseStringBody, fromStrRadix16, hexValList, hexVal,
      isLeadSurrogate]
    rfl
  · simp [parseString, parseStringBody, fromStrRadix16, hexValList, hexVal,
      isLeadSurrogate, isTrailSurrogate]
    split
    · omega
    · split
      · omega
      · rfl

/-- Witness for C9: the byte `x` after a backslash is rejected. -/
theorem claim_C9_witness :
    parseString (0x22 :: 0x5C :: 0x78 :: []) = .error .InvalidStringContent :=
  claim_C9.1 0x78 [] (by decide)


/-! ## The cbor decoder (`src/cbor/de.rs`, `src/data/cbor/de.rs`)

Both cbor decoder variants share every byte-level function; the
`next_key_seed` duplicate check (`DecodeCborError::DuplicateKey`) is that of
`src/data/cbor/de.rs`.  `decode_len` faithfully includes the
`u64::from_be(len)` call applied to the already-assembled native value,
which on little-endian targets (every deployment target of the crate)
byte-swaps the 2-, 4- and 8-byte length forms. -/

/-- `DecodeCborError` (`src/data/cbor/de.rs`). -/
inductive DecodeCborError where
  | UnexpectedEndOfInput
  | ForbiddenType
  | InvalidNumber
  | InvalidStringContent
  | InvalidLength
  | DuplicateKey
  | TrailingBytes
  | ExpectedBool
  | ExpectedNumber
  | ExpectedString
  | ExpectedNull
  | ExpectedArray
  | ExpectedObject
  deriving Repr, DecidableEq

/-- `u64::swap_bytes`. -/
def byteSwap64 (x : Nat) : Nat :=
  (x % 256) * 2 ^ 56 + (x / 2 ^ 8 % 256) * 2 ^ 48 + (x / 2 ^ 16 % 256) * 2 ^ 40
    + (x / 2 ^ 24 % 256) * 2 ^ 32 + (x / 2 ^ 32 % 256) * 2 ^ 24
    + (x / 2 ^ 40 % 256) * 2 ^ 16 + (x / 2 ^ 48 % 256) * 2 ^ 8 + (x / 2 ^ 56 % 256)

/-- `u64::from_be` on a little-endian target: swap the bytes. -/
def u64FromBe (x : Nat) : Nat := byteSwap64 x

/-- Read `k` bytes, accumulating `acc = acc << 8 | byte`. -/
def readBeAux : Nat → Nat → List Nat → Except DecodeCborError (Nat × List Nat)
  | 0, acc, input => pure (acc, input)
  | k + 1, acc, input =>
    match input with
    | [] => throw .UnexpectedEndOfInput
    | b :: r => readBeAux k (acc * 256 + b) r

/-- `decode_len`: additional info 0–23 immediate, 24 one byte, 25/26/27
two/four/eight bytes shifted together and then passed through
`u64::from_be`. -/
def decodeLen (tag : Nat) (input : List Nat) :
    Except DecodeCborError (Nat × List Nat) :=
  let t := tag % 32
  if t ≤ 23 then pure (t, input)
  else if t = 24 then
    match input with
    | [] => throw .UnexpectedEndOfInput
    | b :: r => pure (b, r)
  else if t = 25 then do
    let (len, r) ← readBeAux 2 0 input
    pure (u64FromBe len, r)
  else if t = 26 then do
    let (len, r) ← readBeAux 4 0 input
    pure (u64FromBe len, r)
  else if t = 27 then do
    let (len, r) ← readBeAux 8 0 input
    pure (u64FromBe len, r)
  else throw .ForbiddenType

/-- `parse_str` / `parse_string`: text-string tag, length, UTF-8
validation. -/
def parseCborStr (input : List Nat) :
    Except DecodeCborError (List Char × List Nat) :=
  match input with
  | [] => throw .UnexpectedEndOfInput
  | tag :: r =>
    if 0x60 ≤ tag ∧ tag ≤ 0x7B then do
      let (len, r2) ← decodeLen tag r
      if r2.length < len then throw .InvalidLength
      else
        match utf8DecodeAll (r2.take len) with
        | some s => pure (s, r2.drop len)
        | none => throw .InvalidStringContent
    else throw .ExpectedString

/-- `parse_number`: the 9-byte float form, with the Float-Safe check. -/
def parseCborNum (input : List Nat) : Except DecodeCborError (Nat × List Nat) :=
  match input with
  | [] => throw .UnexpectedEndOfInput
  | b :: r =>
    if b = 0xFB then do
      let (bits, r2) ← readBeAux 8 0 r
      match LegacyF64.from_f64 bits with
      | some f => pure (f, r2)
      | none => throw .InvalidNumber
    else throw .ExpectedNumber

mutual

def parseCborValue : Nat → List Nat → Except DecodeCborError (Value × List Nat)
  | 0, _ => throw .UnexpectedEndOfInput
  | fuel + 1, input =>
    match input with
    | [] => throw .UnexpectedEndOfInput
    | b :: t =>
      if b = 0xF4 then pure (.bool false, t)
      else if b = 0xF5 then pure (.bool true, t)
      else if b = 0xF6 then pure (.null, t)
      else if b = 0xFB then do
        let (f, r) ← parseCborNum (b :: t)
        pure (.float f, r)
      else if 0x60 ≤ b ∧ b ≤ 0x7B then do
        let (s, r) ← parseCborStr (b :: t)
        pure (.str s, r)
      else if 0x80 ≤ b ∧ b ≤ 0x9B then do
        let (len, r) ← decodeLen b t
        let (vs, r2) ← parseCborArray fuel len [] r
        pure (.arr vs, r2)
      else if 0xA0 ≤ b ∧ b ≤ 0xBB then do
        let (len, r) ← decodeLen b t
        let (es, r2) ← parseCborObj fuel len [] r
        pure (.obj es, r2)
      else throw .ForbiddenType

def parseCborArray :
    Nat → Nat → List Value → List Nat → Except DecodeCborError (List Value × List Nat)
  | 0, _, _, _ => throw .UnexpectedEndOfInput
  | fuel + 1, len, acc, input =>
    match len with
    | 0 => pure (acc, input)
    | len2 + 1 => do
      let (v, r) ← parseCborValue fuel input
      parseCborArray fuel len2 (acc ++ [v]) r

def parseCborObj :
    Nat → Nat → List (List Char × Value) → List Nat →
      Except DecodeCborError (List (List Char × Value) × List Nat)
  | 0, _, _, _ => throw .UnexpectedEndOfInput
  | fuel + 1, len, acc, input =>
    match len with
    | 0 => pure (acc, input)
    | len2 + 1 => do
      let (k, r) ← parseCborStr input
      if acc.any (fun p => p.1 = k) then throw .DuplicateKey
      else do
        let (v, r2) ← parseCborValue fuel r
        parseCborObj fuel len2 (acc ++ [(k, v)]) r2

end

/-- `cbor::from_slice::<Value>`: one value, then end of input. -/
def cborFromSlice (input : List Nat) : Except DecodeCborError Value :=
  match parseCborValue (input.length + 1) input with
  | .error e => .error e
  | .ok (v, rest) => if rest.isEmpty then .ok v else .error .TrailingBytes

/-! ## The cbor encoder (`src/cbor/ser.rs`) -/

/-- `EncodeCborError`. -/
inductive EncodeCborError where
  | Io
  | InvalidFloat (bits : Nat)
  | InvalidUnsignedInteger (n : Nat)
  | InvalidSignedInteger (n : Nat)
  | UnknownLength
  | Message (msg : String)
  deriving Repr, DecidableEq

/-- The `k` big-endian bytes of `x` (what `to_be` + transmute emit). -/
def beBytesAux : Nat → Nat → List Nat
  | 0, _ => []
  | k + 1, x => (x / 2 ^ (8 * k) % 256) :: beBytesAux k x

/-- The `k` big-endian bytes of `x`. -/
def beBytes (k x : Nat) : List Nat := beBytesAux k x

/-- `write_len`: the smallest-width length prefix for the given major-type
base tag. -/
def writeLen (len majorBase : Nat) : List Nat :=
  if len ≤ 23 then [majorBase + len]
  else if len ≤ 255 then [majorBase + 24, len]
  else if len ≤ 65535 then (majorBase + 25) :: beBytes 2 len
  else if len ≤ 4294967295 then (majorBase + 26) :: beBytes 4 len
  else (majorBase + 27) :: beBytes 8 len

/-- `serialize_f64`: Float-Safe check, then the 9-byte form. -/
def cborSerF64 (bits : Nat) : Except EncodeCborError (List Nat) :=
  if LegacyF64.is_valid bits then pure (0xFB :: beBytes 8 bits)
  else throw (.InvalidFloat bits)

mutual

def cborSerValue : Value → Except EncodeCborError (List Nat)
  | .null => pure [0xF6]
  | .bool true => pure [0xF5]
  | .bool false => pure [0xF4]
  | .float bits => cborSerF64 bits
  | .str s => pure (writeLen (strBytes s).length 0x60 ++ strBytes s)
  | .arr vs => do
    let es ← cborSerList vs
    pure (writeLen vs.length 0x80 ++ es)
  | .obj entries => do
    let es ← cborSerEntries entries
    pure (writeLen entries.length 0xA0 ++ es)

def cborSerList : List Value → Except EncodeCborError (List Nat)
  | [] => pure []
  | v :: t => do
    let h ← cborSerValue v
    let r ← cborSerList t
    pure (h ++ r)

def cborSerEntries : List (List Char × Value) → Except EncodeCborError (List Nat)
  | [] => pure []
  | (k, v) :: t => do
    let hv ← cborSerValue v
    let r ← cborSerEntries t
    pure (writeLen (strBytes k).length 0x60 ++ strBytes k ++ hv ++ r)

end

/-- `cbor::to_vec`. -/
def cborToVec (v : Value) : Except EncodeCborError (List Nat) := cborSerValue v

/-- `is_u64_valid` from `src/lib.rs`: `n > 9007199254740992`. -/
def is_u64_valid (n : Nat) : Bool := decide (9007199254740992 < n)

/-- Rust's `v as f64` on a `u64`: round to nearest, ties to even. -/
def u64AsF64 (v : Nat) : Nat := roundDecToF64 false v 0

/-- `serialize_u64`: the validity gate, then float serialization of the
converted value. -/
def cborSerU64 (v : Nat) : Except EncodeCborError (List Nat) :=
  if is_u64_valid v then cborSerF64 (u64AsF64 v)
  else throw (.InvalidUnsignedInteger v)


/-- C7: every binary input whose first byte is not a permitted form (major
type 3, 4 or 5 with additional info 0–27, or the simple values `0xF4`,
`0xF5`, `0xF6`, `0xFB`) is rejected with `ForbiddenType`, whatever the
remaining bytes; in particular the half-precision float `F9 00 00` is. -/
theorem claim_C7 :
    (∀ b rest, ¬(0x60 ≤ b ∧ b ≤ 0x7B) → ¬(0x80 ≤ b ∧ b ≤ 0x9B) →
      ¬(0xA0 ≤ b ∧ b ≤ 0xBB) → b ≠ 0xF4 → b ≠ 0xF5 → b ≠ 0xF6 → b ≠ 0xFB →
      cborFromSlice (b :: rest) = .error .ForbiddenType)
    ∧ cborFromSlice [0xF9, 0x00, 0x00] = .error .ForbiddenType := by
  constructor
  · intro b rest h1 h2 h3 h4 h5 h6 h7
    have hstep : parseCborValue (rest.length + 1 + 1) (b :: rest)
        = throw .ForbiddenType := by
      simp only [parseCborValue]
      rw [if_neg h4, if_neg h5, if_neg h6, if_neg h7, if_neg h1, if_neg h2,
        if_neg h3]
    simp [cborFromSlice, hstep]
  · rfl

/-- Closed instance of C7 at the integer tag `0x00`. -/
theorem claim_C7_witness :
    cborFromSlice [0x00] = Except.error DecodeCborError.ForbiddenType :=
  claim_C7.1 0x00 [] (by decide) (by decide) (by decide) (by decide)
    (by decide) (by decide) (by decide)


/-- C6: both decoders reject a repeated object key with the Duplicate-Key
error.  Textual: whenever the object-entry loop of `src/json/de.rs` parses a
key already among the accumulated entries, it fails
`DecodeJsonError.DuplicateKey` (before parsing the entry's value).  Binary:
whenever `next_key_seed` of `src/data/cbor/de.rs` parses a key already
accumulated, it fails `DecodeCborError.DuplicateKey`.  In particular the
textual input `{"a":null,"a":[]}` and the binary input
`A2 61 61 F6 61 61 80` are both rejected with Duplicate-Key. -/
theorem claim_C6 :
    (∀ fuel acc input b t key rest1,
      input.dropWhile is_ws = b :: t → b ≠ 0x7D →
      parseString ((b :: t).dropWhile is_ws) = .ok (key, rest1) →
      acc.any (fun p => p.1 = key) = true →
      parseObjEntries (fuel + 1) true acc input = .error .DuplicateKey)
    ∧ (∀ fuel len acc input key r,
      parseCborStr input = .ok (key, r) →
      acc.any (fun p => p.1 = key) = true →
      parseCborObj (fuel + 1) (len + 1) acc input = .error .DuplicateKey)
    ∧ jsonFromSliceValue
        [0x7B, 0x22, 0x61, 0x22, 0x3A, 0x6E, 0x75, 0x6C, 0x6C, 0x2C,
         0x22, 0x61, 0x22, 0x3A, 0x5B, 0x5D, 0x7D] = .error .DuplicateKey
    ∧ cborFromSlice [0xA2, 0x61, 0x61, 0xF6, 0x61, 0x61, 0x80]
        = .error .DuplicateKey := by
  refine ⟨?_, ?_, by rfl, by rfl⟩
  · intro fuel acc input b t key rest1 hdrop hb hkey hany
    simp only [parseObjEntries]
    rw [hdrop]
    simp only [if_neg hb, Except.bind, bind, pure, if_true, Except.pure]
    rw [hkey]
    show (if (acc.any fun p => decide (p.1 = key)) = true then
        throw DecodeJsonError.DuplicateKey else _) = _
    rw [if_pos hany]
    rfl
  · intro fuel len acc input key r hkey hany
    simp only [parseCborObj]
    simp only [hkey, Except.bind, bind]
    show (if (acc.any fun p => decide (p.1 = key)) = true then
        throw DecodeCborError.DuplicateKey else _) = _
    rw [if_pos hany]
    rfl

/-- Closed instances of C6's two loop-level statements: the textual loop at
input `"a":0}` with key `a` already seen, and the binary loop at input
`61 61 80` with key `a` already seen. -/
theorem claim_C6_witness :
    parseObjEntries 1 true [(['a'], Value.null)]
      [0x22, 0x61, 0x22, 0x3A, 0x30, 0x7D] = Except.error DecodeJsonError.DuplicateKey
    ∧ parseCborObj 1 1 [(['a'], Value.null)] [0x61, 0x61, 0x80]
        = Except.error DecodeCborError.DuplicateKey :=
  ⟨claim_C6.1 0 [(['a'], Value.null)] [0x22, 0x61, 0x22, 0x3A, 0x30, 0x7D] 0x22
      [0x61, 0x22, 0x3A, 0x30, 0x7D] ['a'] [0x3A, 0x30, 0x7D] (by rfl) (by decide)
      (by rfl) (by decide),
   claim_C6.2.1 0 0 [(['a'], Value.null)] [0x61, 0x61, 0x80] ['a'] [0x80]
      (by rfl) (by decide)⟩


set_option maxRecDepth 20000 in
/-- C3: the binary round-trip fails.  The well-formed value consisting of a
256-character string encodes successfully — `write_len` emits the length 256
big-endian as `79 01 00` — but decoding that very output fails with
`InvalidLength`: `decode_len` reassembles the two length bytes into the
native value 256 and then applies `u64::from_be` to it, byte-swapping it
into `2 ^ 48` on a little-endian target, which exceeds the remaining input.
(Decoding a 255-character string, whose length fits the one-byte form,
round-trips.) -/
theorem claim_C3 :
    cborToVec (Value.str (List.replicate 256 'a'))
      = .ok (0x79 :: 0x01 :: 0x00 :: List.replicate 256 0x61)
    ∧ cborFromSlice (0x79 :: 0x01 :: 0x00 :: List.replicate 256 0x61)
      = .error .InvalidLength
    ∧ cborToVec (Value.str (List.replicate 255 'a'))
      = .ok (0x78 :: 0xFF :: List.replicate 255 0x61)
    ∧ cborFromSlice (0x78 :: 0xFF :: List.replicate 255 0x61)
      = .ok (Value.str (List.replicate 255 'a')) := by
  exact ⟨by rfl, by rfl, by rfl, by rfl⟩


/-- `natLog2Aux` computes the floor of the base-2 logarithm. -/
theorem natLog2Aux_spec : ∀ fuel n, 1 ≤ n → n ≤ fuel →
    2 ^ natLog2Aux fuel n ≤ n ∧ n < 2 ^ (natLog2Aux fuel n + 1) := by
  intro fuel
  induction fuel with
  | zero => intro n h1 h2; omega
  | succ f ih =>
    intro n h1 h2
    simp only [natLog2Aux]
    by_cases hn : n ≤ 1
    · rw [if_pos hn]
      simp
      omega
    · rw [if_neg hn]
      obtain ⟨a, b⟩ := ih (n / 2) (by omega) (by omega)
      set k := natLog2Aux f (n / 2) with hk
      have e1 : 2 ^ (k + 1) = 2 * 2 ^ k := by rw [pow_succ]; ring
      have e2 : 2 ^ (k + 1 + 1) = 2 * 2 ^ (k + 1) := by rw [pow_succ]; ring
      omega

/-- `natLog2 n` is the floor of the base-2 logarithm of `n ≥ 1`. -/
theorem natLog2_spec (n : Nat) (h : 1 ≤ n) :
    2 ^ natLog2 n ≤ n ∧ n < 2 ^ (natLog2 n + 1) :=
  natLog2Aux_spec n n h le_rfl

/-- Half-even rounding of `num / den` lies between the floor and the floor
plus one. -/
theorem roundRatHalfEven_bounds (num den : Nat) :
    num / den ≤ roundRatHalfEven num den
      ∧ roundRatHalfEven num den ≤ num / den + 1 := by
  simp only [roundRatHalfEven]
  split
  · omega
  · split
    · omega
    · split <;> omega

/-- A bit pattern with exponent field in `[1, 2046]` is Float-Safe. -/
theorem f64_valid_of_fields (ef frac : Nat) (h1 : 1 ≤ ef) (h2 : ef ≤ 2046)
    (h3 : frac < 2 ^ 52) :
    LegacyF64.is_valid (ef * 2 ^ 52 + frac) = true := by
  unfold LegacyF64.is_valid f64EqZero f64IsFinite f64ExpField negZeroBits f64SignPositive
  have hdiv : (ef * 2 ^ 52 + frac) / 2 ^ 52 = ef := by
    rw [mul_comm, Nat.mul_add_div (by norm_num), Nat.div_eq_of_lt h3]
    omega
  have hlow : 1 * 2 ^ 52 ≤ ef * 2 ^ 52 := Nat.mul_le_mul_right _ h1
  have hupper : ef * 2 ^ 52 ≤ 2046 * 2 ^ 52 := Nat.mul_le_mul_right _ h2
  have hp : (2 : Nat) ^ 63 = 2048 * 2 ^ 52 := by norm_num
  have hne0 : ef * 2 ^ 52 + frac ≠ 0 := by omega
  have hne63 : ef * 2 ^ 52 + frac ≠ 2 ^ 63 := by omega
  have hfin : ef % 2 ^ 11 ≠ 2047 := by
    have : ef % 2 ^ 11 = ef := Nat.mod_eq_of_lt (by omega)
    omega
  have hdiv2 : (ef * 4503599627370496 + frac) / 4503599627370496 = ef := by
    have h52 : (4503599627370496 : Nat) = 2 ^ 52 := by norm_num
    rw [h52]
    exact hdiv
  simp [hdiv, hne0, hne63, hfin]
  rw [if_neg (by omega)]
  refine ⟨by rw [hdiv2]; omega, by omega, by omega⟩

/-- The round-to-nearest conversion of a `u64` beyond `2 ^ 53` (and below
`2 ^ 64`) is a Float-Safe bit pattern. -/
theorem u64AsF64_valid (n : Nat) (h1 : 9007199254740992 < n) (h2 : n < 2 ^ 64) :
    LegacyF64.is_valid (u64AsF64 n) = true := by
  have hL := natLog2_spec n (by omega)
  set L := natLog2 n with hLdef
  have hL53 : 53 ≤ L := by
    by_contra hc
    push_neg at hc
    have hle : 2 ^ (L + 1) ≤ 2 ^ 53 := Nat.pow_le_pow_right (by norm_num) (by omega)
    have h53 : (9007199254740992 : Nat) = 2 ^ 53 := by norm_num
    omega
  have hL63 : L ≤ 63 := by
    by_contra hc
    push_neg at hc
    have hge : (2 : Nat) ^ 64 ≤ 2 ^ L := Nat.pow_le_pow_right (by norm_num) (by omega)
    omega
  have hfe : findExp n 1 = (L : Int) + 1 := by
    unfold findExp
    have hlog1 : natLog2 1 = 0 := rfl
    rw [hlog1]
    have he0 : ((L : Int) - (0 : Nat)) = (L : Int) := by omega
    rw [he0]
    have hge : ratGePow2 n 1 (L : Int) = true := by
      unfold ratGePow2
      rw [if_pos (by omega)]
      have ht : ((L : Int)).toNat = L := by omega
      rw [ht]
      simpa using hL.1
    simp [hge]
  have hm : scaledRound n 1 (53 - ((L : Int) + 1)) = roundRatHalfEven n (2 ^ (L - 52)) := by
    unfold scaledRound
    rw [if_neg (by omega)]
    have ht : (-(53 - ((L : Int) + 1))).toNat = L - 52 := by omega
    rw [ht, one_mul]
  have hq := roundRatHalfEven_bounds n (2 ^ (L - 52))
  have hpos : 0 < 2 ^ (L - 52) := Nat.pos_pow_of_pos _ (by norm_num)
  have hpow1 : 2 ^ 52 * 2 ^ (L - 52) = 2 ^ L := by
    rw [← pow_add]
    congr 1
    omega
  have hq1 : 2 ^ 52 ≤ n / 2 ^ (L - 52) :=
    (Nat.le_div_iff_mul_le hpos).mpr (by rw [hpow1]; exact hL.1)
  have hpow2 : 2 ^ 53 * 2 ^ (L - 52) = 2 ^ (L + 1) := by
    rw [← pow_add]
    congr 1
    omega
  have hq2 : n / 2 ^ (L - 52) < 2 ^ 53 :=
    (Nat.div_lt_iff_lt_mul hpos).mpr (by rw [hpow2]; exact hL.2)
  unfold u64AsF64 roundDecToF64
  rw [if_neg (show ¬ n = 0 by omega)]
  simp only [show ((0 : Int) ≤ 0) = True by simp, if_true, Int.toNat_zero, pow_zero,
    mul_one]
  rw [hfe]
  rw [if_neg (show ¬ ((L : Int) + 1 ≤ -1022) by omega)]
  rw [hm]
  set m := roundRatHalfEven n (2 ^ (L - 52)) with hmdef
  have hm52 : 2 ^ 52 ≤ m := by omega
  have hm53 : m ≤ 2 ^ 53 := by omega
  by_cases hmx : m = 2 ^ 53
  · rw [if_pos hmx, if_pos hmx]
    rw [if_neg (show ¬ (1023 : Int) < (L : Int) + 1 + 1 - 1 by omega)]
    have htn : ((L : Int) + 1 + 1 - 1 + 1023).toNat = L + 1024 := by omega
    rw [htn]
    simp only [Bool.false_eq_true, if_false, zero_add, Nat.sub_self]
    have := f64_valid_of_fields (L + 1024) 0 (by omega) (by omega) (by norm_num)
    simpa using this
  · rw [if_neg hmx, if_neg hmx]
    rw [if_neg (show ¬ (1023 : Int) < (L : Int) + 1 - 1 by omega)]
    have htn : ((L : Int) + 1 - 1 + 1023).toNat = L + 1023 := by omega
    rw [htn]
    simp only [Bool.false_eq_true, if_false, zero_add]
    exact f64_valid_of_fields (L + 1023) (m - 2 ^ 52) (by omega) (by omega) (by omega)

/-- C10: `is_u64_valid n` holds exactly when `n > 9007199254740992 = 2 ^ 53`;
consequently the binary serializer's `serialize_u64` rejects every
`n ≤ 2 ^ 53` with `InvalidUnsignedInteger`, and encodes every `n > 2 ^ 53`
as a float — the 9-byte form `FB` followed by the big-endian bit pattern of
`n` rounded to the nearest binary64. -/
theorem claim_C10 :
    (∀ n : Nat, is_u64_valid n = true ↔ 9007199254740992 < n)
    ∧ (∀ n : Nat, n ≤ 9007199254740992 →
        cborSerU64 n = .error (.InvalidUnsignedInteger n))
    ∧ (∀ n : Nat, 9007199254740992 < n → n < 2 ^ 64 →
        cborSerU64 n = .ok (0xFB :: beBytes 8 (u64AsF64 n))) := by
  refine ⟨fun n => by simp [is_u64_valid], fun n h => ?_, fun n h1 h2 => ?_⟩
  · unfold cborSerU64
    rw [if_neg (by simp [is_u64_valid]; omega)]
    rfl
  · unfold cborSerU64
    rw [if_pos (by simp [is_u64_valid]; omega)]
    unfold cborSerF64
    rw [if_pos (u64AsF64_valid n h1 h2)]
    rfl

/-- Closed instances of C10 at `2 ^ 53 + 1` (accepted) and `100`
(rejected). -/
theorem claim_C10_witness :
    is_u64_valid 9007199254740993 = true
    ∧ cborSerU64 100 = Except.error (EncodeCborError.InvalidUnsignedInteger 100)
    ∧ cborSerU64 9007199254740993
        = Except.ok (0xFB :: beBytes 8 (u64AsF64 9007199254740993)) :=
  ⟨(claim_C10.1 9007199254740993).mpr (by decide),
   claim_C10.2.1 100 (by decide),
   claim_C10.2.2 9007199254740993 (by decide) (by decide)⟩

end LegacyMsg
